import Mathlib

/-!
Verification development for the `seq-hash` streaming k-mer hashing crate.

The crate computes, for every length-`k` window of a symbol sequence, a 32-bit
hash, through three hasher families (`NtHasher`, `MulHasher`, `AntiLexHasher`),
each in a forward and a canonical (reverse-complement invariant) variant, via
a one-shot per-window path (`hash_seq`), a scalar streaming path
(`hash_kmers_scalar`), a SIMD lane-parallel path (`hash_kmers_simd`), and an
ambiguity-masking wrapper.

All machine integers are modelled as `Nat` with explicit reduction `% 2 ^ 32`
where 32-bit wrap-around occurs.  Sequences are modelled by the list of symbol
values their representation denotes (the external `packed-seq` crate is only
used through symbol iteration, the declared bits-per-symbol, and the symbol
complement, which for the 2-bit DNA encoding is XOR with 2).
-/

set_option maxHeartbeats 1000000

/-! ### 32-bit rotation primitives -/

/-- Left rotation of a 32-bit word, `u32::rotate_left`.  The rotation amount is
reduced modulo 32, exactly as on hardware. -/
def rotl (x n : Nat) : Nat :=
  ((x <<< (n % 32)) % 2 ^ 32) ||| (x >>> (32 - n % 32))

/-- Right rotation of a 32-bit word, `u32::rotate_right`. -/
def rotr (x n : Nat) : Nat :=
  (x >>> (n % 32)) ||| ((x <<< (32 - n % 32)) % 2 ^ 32)

theorem shiftRight_le_self (x n : Nat) : x >>> n ≤ x := by
  rw [Nat.shiftRight_eq_div_pow]
  exact Nat.div_le_self _ _

theorem rotl_lt {x : Nat} (hx : x < 2 ^ 32) (n : Nat) : rotl x n < 2 ^ 32 := by
  have h1 : (x <<< (n % 32)) % 2 ^ 32 < 2 ^ 32 := Nat.mod_lt _ (by norm_num)
  have h2 : x >>> (32 - n % 32) < 2 ^ 32 :=
    Nat.lt_of_le_of_lt (shiftRight_le_self _ _) hx
  exact Nat.or_lt_two_pow h1 h2

theorem rotr_lt {x : Nat} (hx : x < 2 ^ 32) (n : Nat) : rotr x n < 2 ^ 32 := by
  have h1 : x >>> (n % 32) < 2 ^ 32 := Nat.lt_of_le_of_lt (shiftRight_le_self _ _) hx
  have h2 : (x <<< (32 - n % 32)) % 2 ^ 32 < 2 ^ 32 := Nat.mod_lt _ (by norm_num)
  exact Nat.or_lt_two_pow h1 h2

theorem testBit_ge32 {x : Nat} (hx : x < 2 ^ 32) {i : Nat} (hi : 32 ≤ i) :
    x.testBit i = false :=
  Nat.testBit_lt_two_pow
    (Nat.lt_of_lt_of_le hx (Nat.pow_le_pow_right (by norm_num) hi))

/-- Two 32-bit words with the same low 32 bits are equal. -/
theorem eq32_of_testBit {x y : Nat} (hx : x < 2 ^ 32) (hy : y < 2 ^ 32)
    (h : ∀ i, i < 32 → x.testBit i = y.testBit i) : x = y := by
  refine Nat.eq_of_testBit_eq fun i => ?_
  by_cases hi : i < 32
  · exact h i hi
  · rw [testBit_ge32 hx (by omega), testBit_ge32 hy (by omega)]

theorem testBit_rotl {x : Nat} (hx : x < 2 ^ 32) (n : Nat) {i : Nat} (hi : i < 32) :
    (rotl x n).testBit i = x.testBit ((i + 32 - n % 32) % 32) := by
  have hm : n % 32 < 32 := Nat.mod_lt _ (by norm_num)
  unfold rotl
  rw [Nat.testBit_lor, Nat.testBit_mod_two_pow, Nat.testBit_shiftLeft,
    Nat.testBit_shiftRight]
  by_cases h : n % 32 ≤ i
  · have h32 : x.testBit (32 - n % 32 + i) = false := testBit_ge32 hx (by omega)
    have hidx : (i + 32 - n % 32) % 32 = i - n % 32 := by omega
    simp [h32, hidx, hi, h]
  · have hidx : (i + 32 - n % 32) % 32 = 32 - n % 32 + i := by omega
    simp [hidx, h]

theorem testBit_rotr {x : Nat} (hx : x < 2 ^ 32) (n : Nat) {i : Nat} (hi : i < 32) :
    (rotr x n).testBit i = x.testBit ((i + n % 32) % 32) := by
  have hm : n % 32 < 32 := Nat.mod_lt _ (by norm_num)
  unfold rotr
  rw [Nat.testBit_lor, Nat.testBit_mod_two_pow, Nat.testBit_shiftLeft,
    Nat.testBit_shiftRight]
  by_cases h : i < 32 - n % 32
  · have hidx : (i + n % 32) % 32 = n % 32 + i := by omega
    simp [hidx, h, Nat.not_le.mpr h]
  · have h32 : x.testBit (n % 32 + i) = false := testBit_ge32 hx (by omega)
    have hidx : (i + n % 32) % 32 = i - (32 - n % 32) := by omega
    simp [h32, hidx, hi, Nat.not_lt.mp h]

@[simp] theorem rotl_zero_word (n : Nat) : rotl 0 n = 0 := by
  simp [rotl]

@[simp] theorem rotr_zero_word (n : Nat) : rotr 0 n = 0 := by
  simp [rotr]

theorem rotl_zero_amount {x : Nat} (hx : x < 2 ^ 32) : rotl x 0 = x := by
  unfold rotl
  have h1 : x >>> 32 = 0 := by
    rw [Nat.shiftRight_eq_div_pow]
    exact Nat.div_eq_of_lt hx
  have h0 : (0 : Nat) % 32 = 0 := rfl
  rw [h0, Nat.shiftLeft_zero, Nat.sub_zero, Nat.mod_eq_of_lt hx, h1, Nat.or_zero]

theorem rotl_xor {x y : Nat} (hx : x < 2 ^ 32) (hy : y < 2 ^ 32) (n : Nat) :
    rotl (x ^^^ y) n = rotl x n ^^^ rotl y n := by
  have hxy : x ^^^ y < 2 ^ 32 := Nat.xor_lt_two_pow hx hy
  refine eq32_of_testBit (rotl_lt hxy n)
    (Nat.xor_lt_two_pow (rotl_lt hx n) (rotl_lt hy n)) fun i hi => ?_
  rw [testBit_rotl hxy n hi, Nat.testBit_xor, Nat.testBit_xor,
    testBit_rotl hx n hi, testBit_rotl hy n hi]

theorem rotr_xor {x y : Nat} (hx : x < 2 ^ 32) (hy : y < 2 ^ 32) (n : Nat) :
    rotr (x ^^^ y) n = rotr x n ^^^ rotr y n := by
  have hxy : x ^^^ y < 2 ^ 32 := Nat.xor_lt_two_pow hx hy
  refine eq32_of_testBit (rotr_lt hxy n)
    (Nat.xor_lt_two_pow (rotr_lt hx n) (rotr_lt hy n)) fun i hi => ?_
  rw [testBit_rotr hxy n hi, Nat.testBit_xor, Nat.testBit_xor,
    testBit_rotr hx n hi, testBit_rotr hy n hi]

theorem rotl_rotl {x : Nat} (hx : x < 2 ^ 32) (a b : Nat) :
    rotl (rotl x a) b = rotl x (a + b) := by
  refine eq32_of_testBit (rotl_lt (rotl_lt hx a) b) (rotl_lt hx (a + b))
    fun i hi => ?_
  rw [testBit_rotl (rotl_lt hx a) b hi,
    testBit_rotl hx a (show (i + 32 - b % 32) % 32 < 32 by omega),
    testBit_rotl hx (a + b) hi]
  congr 1
  omega

theorem rotl_congr_amount {x : Nat} (a b : Nat) (h : a % 32 = b % 32) :
    rotl x a = rotl x b := by
  unfold rotl
  rw [h]

theorem rotr_rotl_self {x : Nat} (hx : x < 2 ^ 32) (n : Nat) :
    rotr (rotl x n) n = x := by
  refine eq32_of_testBit (rotr_lt (rotl_lt hx n) n) hx fun i hi => ?_
  rw [testBit_rotr (rotl_lt hx n) n hi,
    testBit_rotl hx n (show (i + n % 32) % 32 < 32 by omega)]
  congr 1
  omega

theorem rotr_rotl_of_le {x : Nat} (hx : x < 2 ^ 32) {a b : Nat} (h : b ≤ a) :
    rotr (rotl x a) b = rotl x (a - b) := by
  have h1 : rotl x a = rotl (rotl x (a - b)) b := by
    rw [rotl_rotl hx]
    congr 1
    omega
  rw [h1, rotr_rotl_self (rotl_lt hx (a - b)) b]

/-! ### XOR / shift distribution helpers -/

theorem shiftRight_xor_distrib (x y n : Nat) :
    (x ^^^ y) >>> n = (x >>> n) ^^^ (y >>> n) := by
  refine Nat.eq_of_testBit_eq fun i => ?_
  simp [Nat.testBit_shiftRight, Nat.testBit_xor]

theorem shiftLeft_xor_distrib (x y n : Nat) :
    (x ^^^ y) <<< n = (x <<< n) ^^^ (y <<< n) := by
  refine Nat.eq_of_testBit_eq fun i => ?_
  simp only [Nat.testBit_shiftLeft, Nat.testBit_xor]
  by_cases h : n ≤ i <;> simp [h]

theorem mod_two_pow_xor_distrib (x y n : Nat) :
    (x ^^^ y) % 2 ^ n = (x % 2 ^ n) ^^^ (y % 2 ^ n) := by
  refine Nat.eq_of_testBit_eq fun i => ?_
  simp only [Nat.testBit_mod_two_pow, Nat.testBit_xor]
  by_cases h : i < n <;> simp [h]

theorem land_xor_distrib (x y m : Nat) :
    (x ^^^ y) &&& m = (x &&& m) ^^^ (y &&& m) := by
  refine Nat.eq_of_testBit_eq fun i => ?_
  simp only [Nat.testBit_and, Nat.testBit_xor]
  by_cases h : m.testBit i <;> simp [h]

theorem xor_left_cancel (a b : Nat) : a ^^^ (a ^^^ b) = b := Nat.xor_cancel_left a b

theorem shiftLeft_shiftRight_of_le {a b : Nat} (x : Nat) (h : b ≤ a) :
    (x <<< a) >>> b = x <<< (a - b) := by
  have h1 : x <<< a = (x <<< (a - b)) <<< b := by
    rw [← Nat.shiftLeft_add]
    congr 1
    omega
  rw [h1, Nat.shiftLeft_shiftRight]

theorem shiftLeft_shiftRight_of_ge {a b : Nat} (x : Nat) (h : a ≤ b) :
    (x <<< a) >>> b = x >>> (b - a) := by
  have h1 : (x <<< a) >>> b = ((x <<< a) >>> a) >>> (b - a) := by
    rw [← Nat.shiftRight_add]
    congr 1
    omega
  rw [h1, Nat.shiftLeft_shiftRight]

theorem shiftRight_eq_zero {x n : Nat} (h : x < 2 ^ n) : x >>> n = 0 := by
  rw [Nat.shiftRight_eq_div_pow]
  exact Nat.div_eq_of_lt h

theorem shiftLeft_lt_two_pow {x a n : Nat} (hx : x < 2 ^ a) (h : a + n ≤ 32) :
    x <<< n < 2 ^ 32 := by
  rw [Nat.shiftLeft_eq]
  calc x * 2 ^ n < 2 ^ a * 2 ^ n := by
        exact Nat.mul_lt_mul_of_lt_of_le hx (Nat.le_refl _) (Nat.two_pow_pos n)
    _ = 2 ^ (a + n) := by rw [Nat.pow_add]
    _ ≤ 2 ^ 32 := Nat.pow_le_pow_right (by norm_num) h

/-! ### Generic streaming machinery

Rust's streaming code drives a mutable closure (`FnMut`) over an iterator of
`(incoming, outgoing)` symbol pairs.  We model a closure as an explicit state
type together with a step function returning the new state and the emitted
value. -/

/-- Run a step function over a list, collecting all emitted values
(the `Iterator::map(mapper)` pattern). -/
def mapAccum (step : σ → α → σ × β) : σ → List α → List β
  | _, [] => []
  | st, a :: l => (step st a).2 :: mapAccum step (step st a).1 l

/-- Run a step function over a list, keeping only the final state
(the `for_each(|a| { mapper(a); })` priming pattern, outputs discarded). -/
def foldSt (step : σ → α → σ × β) (st : σ) (l : List α) : σ :=
  l.foldl (fun s a => (step s a).1) st

@[simp] theorem mapAccum_nil (step : σ → α → σ × β) (st : σ) :
    mapAccum step st [] = [] := rfl

@[simp] theorem mapAccum_cons (step : σ → α → σ × β) (st : σ) (a : α) (l : List α) :
    mapAccum step st (a :: l) = (step st a).2 :: mapAccum step (step st a).1 l := rfl

@[simp] theorem foldSt_nil (step : σ → α → σ × β) (st : σ) : foldSt step st [] = st := rfl

@[simp] theorem foldSt_cons (step : σ → α → σ × β) (st : σ) (a : α) (l : List α) :
    foldSt step st (a :: l) = foldSt step (step st a).1 l := rfl

@[simp] theorem length_mapAccum (step : σ → α → σ × β) (st : σ) (l : List α) :
    (mapAccum step st l).length = l.length := by
  induction l generalizing st with
  | nil => rfl
  | cons a l ih => simp [ih]

theorem foldSt_append (step : σ → α → σ × β) (st : σ) (l₁ l₂ : List α) :
    foldSt step st (l₁ ++ l₂) = foldSt step (foldSt step st l₁) l₂ :=
  List.foldl_append ..

theorem mapAccum_append (step : σ → α → σ × β) (st : σ) (l₁ l₂ : List α) :
    mapAccum step st (l₁ ++ l₂) =
      mapAccum step st l₁ ++ mapAccum step (foldSt step st l₁) l₂ := by
  induction l₁ generalizing st with
  | nil => rfl
  | cons a l ih => simp [ih]

/-- When each emitted value is a function `g` of the state after the step, the
last emitted value is `g` of the final state. -/
theorem mapAccum_getLastD (step : σ → α → σ × β) (g : σ → β)
    (hg : ∀ st a, (step st a).2 = g (step st a).1) :
    ∀ (d : β) (l : List α) (st : σ), l ≠ [] →
      (mapAccum step st l).getLastD d = g (foldSt step st l)
  | _, [], _, h => absurd rfl h
  | _, [a], st, _ => by simp [hg]
  | d, a :: b :: l, st, _ => by
    rw [mapAccum_cons, List.getLastD_cons,
      mapAccum_getLastD step g hg _ (b :: l) _ (by simp)]
    rfl

/-- Two step functions that agree on states satisfying an invariant preserved
by the first produce identical output streams. -/
theorem mapAccum_congr (inv : σ → Prop) (step₁ step₂ : σ → α → σ × β)
    (hagree : ∀ st a, inv st → step₁ st a = step₂ st a)
    (hpres : ∀ st a, inv st → inv (step₁ st a).1) :
    ∀ (l : List α) (st : σ), inv st → mapAccum step₁ st l = mapAccum step₂ st l
  | [], _, _ => rfl
  | a :: l, st, h => by
    rw [mapAccum_cons, mapAccum_cons, ← hagree st a h,
      mapAccum_congr inv step₁ step₂ hagree hpres l _ (hpres st a h)]

/-- All states reached by `foldSt` satisfy a preserved invariant. -/
theorem foldSt_inv (inv : σ → Prop) (step : σ → α → σ × β)
    (hpres : ∀ st a, inv st → inv (step st a).1) :
    ∀ (l : List α) (st : σ), inv st → inv (foldSt step st l)
  | [], _, h => h
  | a :: l, st, h => foldSt_inv inv step hpres l _ (hpres st a h)

/-! ### Windows of a sequence -/

/-- All length-`k` windows of `t`, in left-to-right order. -/
def windowsList (k : Nat) (t : List Nat) : List (List Nat) :=
  (List.range (t.length + 1 - k)).map (fun i => (t.drop i).take k)

@[simp] theorem length_windowsList (k : Nat) (t : List Nat) :
    (windowsList k t).length = t.length + 1 - k := by
  simp [windowsList]

theorem getElem_windowsList {k : Nat} {t : List Nat} {i : Nat}
    (h : i < (windowsList k t).length) :
    (windowsList k t)[i] = (t.drop i).take k := by
  simp [windowsList]

theorem windowsList_cons {k : Nat} {x : Nat} {t : List Nat} (hk : k ≤ t.length + 1) :
    windowsList k (x :: t) = ((x :: t).take k) :: windowsList k t := by
  unfold windowsList
  have h1 : (x :: t).length + 1 - k = (t.length + 1 - k) + 1 := by
    simp only [List.length_cons]
    omega
  rw [h1, List.range_succ_eq_map, List.map_cons]
  simp [List.map_map, Function.comp_def]

/-- Dropping the first `k-1` windows of `u ++ s` (where `u` has length `k-1`)
leaves exactly the windows of `s`. -/
theorem windowsList_append_drop {k : Nat} {u s : List Nat} (hu : u.length = k - 1)
    (hk : 1 ≤ k) :
    (windowsList k (u ++ s)).drop (k - 1) = windowsList k s := by
  have hk' : 1 ≤ k := hk
  apply List.ext_getElem
  · rw [List.length_drop, length_windowsList, length_windowsList, List.length_append, hu]
    omega
  · intro i h1 h2
    rw [List.getElem_drop]
    rw [getElem_windowsList, getElem_windowsList]
    congr 1
    rw [← List.drop_drop, ← hu, List.drop_left]

/-! ### The streaming protocol -/

/-- Faithful translation of the body of `KmerHasher::hash_kmers_scalar`:
feed the first `delay` symbols paired with the placeholder `0`, feed the next
`k-1-delay` symbols paired with the delayed iterator, discarding outputs, then
emit one hash per remaining `(incoming, outgoing)` pair. -/
def hashKmersScalarWith (k d : Nat) (step : σ → Nat × Nat → σ × Nat) (st0 : σ)
    (s : List Nat) : List Nat :=
  mapAccum step
    (foldSt step (foldSt step st0 ((s.take d).map (fun a => (a, 0))))
      (((s.drop d).zip s).take (k - 1 - d)))
    ((s.drop (k - 1)).zip (s.drop (k - 1 - d)))

/-- The `(incoming, outgoing)` pair stream seen by the mapper when the whole
protocol is viewed as one pass: the outgoing stream is the incoming stream
delayed by `d` positions, with `0` placeholders in front. -/
def pairStream (d : Nat) (s : List Nat) : List (Nat × Nat) :=
  s.zip (List.replicate d 0 ++ s)

theorem take_zip (l : List α) (m : List β) (n : Nat) :
    (l.zip m).take n = (l.take n).zip (m.take n) := by
  induction l generalizing m n with
  | nil => simp
  | cons a l ih =>
    cases m with
    | nil => simp
    | cons b m =>
      cases n with
      | zero => rfl
      | succ n => simp [ih]

theorem zip_replicate_right (l : List Nat) (n : Nat) (hn : l.length ≤ n) :
    l.zip (List.replicate n (0 : Nat)) = l.map (fun a => (a, 0)) := by
  induction l generalizing n with
  | nil => simp
  | cons a l ih =>
    cases n with
    | zero => simp at hn
    | succ n =>
      simp only [List.replicate_succ, List.zip_cons_cons, List.map_cons]
      rw [ih n (by simpa using hn)]

/-- The three-phase protocol equals one pass over the delayed pair stream with
the first `k-1` outputs discarded. -/
theorem hashKmersScalarWith_eq_drop {k d : Nat} (hk : 1 ≤ k) (hd : d ≤ k - 1)
    (step : σ → Nat × Nat → σ × Nat) (st0 : σ) (s : List Nat) :
    hashKmersScalarWith k d step st0 s =
      (mapAccum step st0 (pairStream d s)).drop (k - 1) := by
  by_cases hL : s.length < k - 1
  · have h1 : s.drop (k - 1) = [] := List.drop_eq_nil_of_le (by omega)
    have h2 : (mapAccum step st0 (pairStream d s)).length ≤ k - 1 := by
      rw [length_mapAccum]
      unfold pairStream
      rw [List.length_zip]
      omega
    rw [List.drop_eq_nil_of_le h2]
    unfold hashKmersScalarWith
    rw [h1]
    simp
  · push_neg at hL
    have hds : d ≤ s.length := by omega
    have hdd : d + (k - 1 - d) = k - 1 := by omega
    -- decompose the one-pass pair stream into the three protocol phases
    have hstep2 : (s.drop d).zip s =
        ((s.drop d).take (k - 1 - d)).zip (s.take (k - 1 - d)) ++
          (s.drop (k - 1)).zip (s.drop (k - 1 - d)) :=
      calc (s.drop d).zip s
          = ((s.drop d).take (k - 1 - d) ++ (s.drop d).drop (k - 1 - d)).zip
              (s.take (k - 1 - d) ++ s.drop (k - 1 - d)) := by
            rw [List.take_append_drop, List.take_append_drop]
        _ = ((s.drop d).take (k - 1 - d)).zip (s.take (k - 1 - d)) ++
              ((s.drop d).drop (k - 1 - d)).zip (s.drop (k - 1 - d)) :=
            List.zip_append (by
              simp only [List.length_take, List.length_drop]
              omega)
        _ = ((s.drop d).take (k - 1 - d)).zip (s.take (k - 1 - d)) ++
              (s.drop (k - 1)).zip (s.drop (k - 1 - d)) := by
            rw [List.drop_drop, hdd]
    have hsplit : pairStream d s =
        ((s.take d).zip (List.replicate d 0) ++
          ((s.drop d).take (k - 1 - d)).zip (s.take (k - 1 - d))) ++
          (s.drop (k - 1)).zip (s.drop (k - 1 - d)) :=
      calc pairStream d s
          = (s.take d ++ s.drop d).zip (List.replicate d 0 ++ s) := by
            unfold pairStream
            rw [List.take_append_drop]
        _ = (s.take d).zip (List.replicate d 0) ++ (s.drop d).zip s :=
            List.zip_append (by
              simp only [List.length_take, List.length_replicate]
              omega)
        _ = ((s.take d).zip (List.replicate d 0) ++
              ((s.drop d).take (k - 1 - d)).zip (s.take (k - 1 - d))) ++
              (s.drop (k - 1)).zip (s.drop (k - 1 - d)) := by
            rw [hstep2, List.append_assoc]
    rw [hsplit, mapAccum_append]
    have hlen : (mapAccum step st0
        ((s.take d).zip (List.replicate d 0) ++
          ((s.drop d).take (k - 1 - d)).zip (s.take (k - 1 - d)))).length = k - 1 := by
      rw [length_mapAccum, List.length_append, List.length_zip, List.length_zip]
      simp only [List.length_take, List.length_replicate, List.length_drop]
      omega
    rw [List.drop_left' hlen]
    unfold hashKmersScalarWith
    rw [foldSt_append,
      zip_replicate_right _ _ (by rw [List.length_take]; omega), take_zip]

/-! ### The CharHasher abstraction (shared by NtHasher and MulHasher) -/

/-- Modelled from the spec: `packed_seq::complement_base` (the sequence
collaborator is out of scope); the complement of a 2-bit encoded DNA symbol is
XOR with 2. -/
def complement_base (b : Nat) : Nat := b ^^^ 2

/-- The `CharHasher` capability record: per-symbol hash `f`, hash of the
complement `c`, and both pre-rotated by `(k-1)*R` bits. -/
structure CharHasher where
  k : Nat
  R : Nat
  canonical : Bool
  bits_per_char : Nat
  f : Nat → Nat
  c : Nat → Nat
  f_rot : Nat → Nat
  c_rot : Nat → Nat

/-- Facts holding for every concrete `CharHasher` implementation in the crate:
table values are 32-bit words, the rotated tables pre-rotate by `(k-1)*R`, and
the complement table is the table permuted by the complement map. -/
structure CharHasher.Wf (h : CharHasher) : Prop where
  f_lt : ∀ b, h.f b < 2 ^ 32
  c_lt : ∀ b, h.c b < 2 ^ 32
  f_rot_eq : ∀ b, h.f_rot b = rotl (h.f b) ((h.k - 1) * h.R)
  c_rot_eq : ∀ b, h.c_rot b = rotl (h.c b) ((h.k - 1) * h.R)
  c_eq : ∀ b, h.c b = h.f (complement_base b)

/-- Apply a function `n` times (the `for _ in 0..n` loops of `fw_init`/`rc_init`). -/
def iterN (f : α → α) : Nat → α → α
  | 0, a => a
  | n + 1, a => iterN f n (f a)

/-- `CharHasher::fw_init`: hash of `k-1` zero symbols. -/
def CharHasher.fw_init (h : CharHasher) : Nat :=
  iterN (fun fw => rotl fw h.R ^^^ h.f 0) (h.k - 1) 0

/-- `CharHasher::rc_init`: reverse-complement hash of `k-1` zero symbols. -/
def CharHasher.rc_init (h : CharHasher) : Nat :=
  iterN (fun rc => rotr rc h.R ^^^ h.c_rot 0) (h.k - 1) 0

/-- The windowed in/out mapper of `impl<CH: CharHasher> KmerHasher for CH`,
as a step function on the `(fw, rc)` state. -/
def CharHasher.inOutStep (h : CharHasher) (st : Nat × Nat) (ar : Nat × Nat) :
    (Nat × Nat) × Nat :=
  let fw_out := rotl st.1 h.R ^^^ h.f ar.1
  let fw1 := fw_out ^^^ h.f_rot ar.2
  if h.canonical then
    let rc_out := rotr st.2 h.R ^^^ h.c_rot ar.1
    ((fw1, rc_out ^^^ h.c ar.2), (fw_out + rc_out) % 2 ^ 32)
  else
    ((fw1, st.2), fw_out)

/-- The single-pass mapper (`KmerHasher::mapper` of the CharHasher impl). -/
def CharHasher.mapStep (h : CharHasher) (st : Nat × Nat) (a : Nat) :
    (Nat × Nat) × Nat :=
  let fw := rotl st.1 h.R ^^^ h.f a
  if h.canonical then
    let rc := rotr st.2 h.R ^^^ h.c_rot a
    ((fw, rc), (fw + rc) % 2 ^ 32)
  else
    ((fw, st.2), fw)

/-- `KmerHasher::hash_seq`: run the single-pass mapper over the whole sequence
and keep the last output, defaulting to `0` on the empty sequence. -/
def CharHasher.hash_seq (h : CharHasher) (s : List Nat) : Nat :=
  (mapAccum h.mapStep (0, 0) s).getLastD 0

/-- `KmerHasher::hash_kmers_scalar` for a CharHasher-based hasher
(whose `delay()` is the default `k - 1`). -/
def CharHasher.hash_kmers_scalar (h : CharHasher) (s : List Nat) : List Nat :=
  hashKmersScalarWith h.k (h.k - 1) h.inOutStep (h.fw_init, h.rc_init) s

/-! Forward and reverse-complement accumulator folds over a window. -/

def CharHasher.fwFoldFrom (h : CharHasher) (st : Nat) (w : List Nat) : Nat :=
  w.foldl (fun fw a => rotl fw h.R ^^^ h.f a) st

def CharHasher.rcFoldFrom (h : CharHasher) (st : Nat) (w : List Nat) : Nat :=
  w.foldl (fun rc a => rotr rc h.R ^^^ h.c_rot a) st

def CharHasher.fwF (h : CharHasher) (w : List Nat) : Nat := h.fwFoldFrom 0 w

def CharHasher.rcF (h : CharHasher) (w : List Nat) : Nat := h.rcFoldFrom 0 w

/-- Combination of the two accumulators into an emitted hash. -/
def CharHasher.combine (h : CharHasher) (fw rc : Nat) : Nat :=
  if h.canonical then (fw + rc) % 2 ^ 32 else fw

/-- The mathematical per-window hash a CharHasher computes. -/
def CharHasher.windowHash (h : CharHasher) (w : List Nat) : Nat :=
  h.combine (h.fwF w) (h.rcF w)

/-! ### Rolling-hash correctness for CharHasher-based hashers -/

theorem rotr_rotr {x : Nat} (hx : x < 2 ^ 32) (a b : Nat) :
    rotr (rotr x a) b = rotr x (a + b) := by
  refine eq32_of_testBit (rotr_lt (rotr_lt hx a) b) (rotr_lt hx (a + b))
    fun i hi => ?_
  rw [testBit_rotr (rotr_lt hx a) b hi,
    testBit_rotr hx a (show (i + b % 32) % 32 < 32 by omega),
    testBit_rotr hx (a + b) hi]
  congr 1
  omega

theorem foldl_preserves {σ α : Type} (P : σ → Prop) (f : σ → α → σ)
    (hf : ∀ st a, P st → P (f st a)) :
    ∀ (l : List α) (st : σ), P st → P (l.foldl f st)
  | [], _, h => h
  | a :: l, st, h => foldl_preserves P f hf l (f st a) (hf st a h)

theorem CharHasher.fwFoldFrom_lt (h : CharHasher) (W : h.Wf) (w : List Nat)
    {st : Nat} (hst : st < 2 ^ 32) : h.fwFoldFrom st w < 2 ^ 32 :=
  foldl_preserves (· < 2 ^ 32) _
    (fun st a hs => Nat.xor_lt_two_pow (rotl_lt hs h.R) (W.f_lt a)) w st hst

theorem CharHasher.rcFoldFrom_lt (h : CharHasher) (W : h.Wf) (w : List Nat)
    {st : Nat} (hst : st < 2 ^ 32) : h.rcFoldFrom st w < 2 ^ 32 := by
  refine foldl_preserves (· < 2 ^ 32) _
    (fun st a hs => Nat.xor_lt_two_pow (rotr_lt hs h.R) ?_) w st hst
  rw [W.c_rot_eq]
  exact rotl_lt (W.c_lt a) _

theorem CharHasher.fwF_lt (h : CharHasher) (W : h.Wf) (w : List Nat) :
    h.fwF w < 2 ^ 32 :=
  h.fwFoldFrom_lt W w (by norm_num)

theorem CharHasher.rcF_lt (h : CharHasher) (W : h.Wf) (w : List Nat) :
    h.rcF w < 2 ^ 32 :=
  h.rcFoldFrom_lt W w (by norm_num)

theorem CharHasher.fwF_concat (h : CharHasher) (w : List Nat) (a : Nat) :
    h.fwF (w ++ [a]) = rotl (h.fwF w) h.R ^^^ h.f a := by
  unfold fwF fwFoldFrom
  rw [List.foldl_append]
  rfl

theorem CharHasher.rcF_concat (h : CharHasher) (w : List Nat) (a : Nat) :
    h.rcF (w ++ [a]) = rotr (h.rcF w) h.R ^^^ h.c_rot a := by
  unfold rcF rcFoldFrom
  rw [List.foldl_append]
  rfl

theorem CharHasher.fwFoldFrom_eq (h : CharHasher) (W : h.Wf) :
    ∀ (w : List Nat) {st : Nat}, st < 2 ^ 32 →
      h.fwFoldFrom st w = rotl st (w.length * h.R) ^^^ h.fwF w
  | [], st, hst => by
    simp [fwFoldFrom, fwF, Nat.zero_mul, rotl_zero_amount hst]
  | a :: w, st, hst => by
    have hfa : h.f a < 2 ^ 32 := W.f_lt a
    have hstep : rotl st h.R ^^^ h.f a < 2 ^ 32 :=
      Nat.xor_lt_two_pow (rotl_lt hst _) hfa
    have h1 : h.fwFoldFrom st (a :: w) = h.fwFoldFrom (rotl st h.R ^^^ h.f a) w := rfl
    have h2 : h.fwF (a :: w) = h.fwFoldFrom (h.f a) w := by
      unfold fwF
      show h.fwFoldFrom (rotl 0 h.R ^^^ h.f a) w = _
      rw [rotl_zero_word, Nat.zero_xor]
    rw [h1, h.fwFoldFrom_eq W w hstep, h2, h.fwFoldFrom_eq W w hfa,
      rotl_xor (rotl_lt hst _) hfa, rotl_rotl hst]
    rw [← Nat.xor_assoc]
    congr 2
    rw [List.length_cons, Nat.succ_mul, Nat.add_comm]

theorem CharHasher.rcFoldFrom_eq (h : CharHasher) (W : h.Wf) :
    ∀ (w : List Nat) {st : Nat}, st < 2 ^ 32 →
      h.rcFoldFrom st w = rotr st (w.length * h.R) ^^^ h.rcF w
  | [], st, hst => by
    have h0 : rotr st 0 = st := by
      have := rotr_rotl_self hst 0
      rwa [rotl_zero_amount hst] at this
    simp [rcFoldFrom, rcF, Nat.zero_mul, h0]
  | a :: w, st, hst => by
    have hca : h.c_rot a < 2 ^ 32 := by
      rw [W.c_rot_eq]
      exact rotl_lt (W.c_lt a) _
    have hstep : rotr st h.R ^^^ h.c_rot a < 2 ^ 32 :=
      Nat.xor_lt_two_pow (rotr_lt hst _) hca
    have h1 : h.rcFoldFrom st (a :: w) = h.rcFoldFrom (rotr st h.R ^^^ h.c_rot a) w := rfl
    have h2 : h.rcF (a :: w) = h.rcFoldFrom (h.c_rot a) w := by
      unfold rcF
      show h.rcFoldFrom (rotr 0 h.R ^^^ h.c_rot a) w = _
      rw [rotr_zero_word, Nat.zero_xor]
    rw [h1, h.rcFoldFrom_eq W w hstep, h2, h.rcFoldFrom_eq W w hca,
      rotr_xor (rotr_lt hst _) hca, rotr_rotr hst]
    rw [← Nat.xor_assoc]
    congr 2
    rw [List.length_cons, Nat.succ_mul, Nat.add_comm]

theorem CharHasher.fwF_cons (h : CharHasher) (W : h.Wf) (x : Nat) (w : List Nat) :
    h.fwF (x :: w) = rotl (h.f x) (w.length * h.R) ^^^ h.fwF w := by
  have h2 : h.fwF (x :: w) = h.fwFoldFrom (h.f x) w := by
    unfold fwF
    show h.fwFoldFrom (rotl 0 h.R ^^^ h.f x) w = _
    rw [rotl_zero_word, Nat.zero_xor]
  rw [h2, h.fwFoldFrom_eq W w (W.f_lt x)]

theorem CharHasher.rcF_cons (h : CharHasher) (W : h.Wf) (x : Nat) (w : List Nat) :
    h.rcF (x :: w) = rotr (h.c_rot x) (w.length * h.R) ^^^ h.rcF w := by
  have hcx : h.c_rot x < 2 ^ 32 := by
    rw [W.c_rot_eq]
    exact rotl_lt (W.c_lt x) _
  have h2 : h.rcF (x :: w) = h.rcFoldFrom (h.c_rot x) w := by
    unfold rcF
    show h.rcFoldFrom (rotr 0 h.R ^^^ h.c_rot x) w = _
    rw [rotr_zero_word, Nat.zero_xor]
  rw [h2, h.rcFoldFrom_eq W w hcx]

theorem xor_xor_self_left (x y : Nat) : (x ^^^ y) ^^^ x = y := by
  rw [Nat.xor_comm x y, Nat.xor_cancel_right]

/-- One in/out step of a canonical CharHasher: starting from the accumulators
of the `k-1` pending symbols `u`, feeding incoming `a` and outgoing `b`
(the head of `u ++ [a]`) emits the window hash of `u ++ [a]` and leaves the
accumulators of the new pending buffer `w'`. -/
theorem CharHasher.inOutStep_spec_true (h : CharHasher) (W : h.Wf)
    (hcan : h.canonical = true) {u w' : List Nat} {a b : Nat}
    (hu : u.length = h.k - 1) (hbw : u ++ [a] = b :: w') :
    h.inOutStep (h.fwF u, h.rcF u) (a, b) =
      ((h.fwF w', h.rcF w'), h.windowHash (u ++ [a])) := by
  have hw' : w'.length = h.k - 1 := by
    have hlen := congrArg List.length hbw
    simp at hlen
    omega
  have hfwu : h.fwF (u ++ [a]) = h.f_rot b ^^^ h.fwF w' := by
    rw [hbw, h.fwF_cons W, hw', ← W.f_rot_eq]
  have hrcu : h.rcF (u ++ [a]) = h.c b ^^^ h.rcF w' := by
    rw [hbw, h.rcF_cons W, hw', W.c_rot_eq, rotr_rotl_self (W.c_lt b)]
  simp only [CharHasher.inOutStep, CharHasher.windowHash, CharHasher.combine,
    hcan, if_true]
  rw [← h.fwF_concat u a, ← h.rcF_concat u a, hfwu, hrcu,
    xor_xor_self_left, xor_xor_self_left]

/-- One in/out step of a forward (non-canonical) CharHasher; the `rc`
component of the state is dead. -/
theorem CharHasher.inOutStep_spec_false (h : CharHasher) (W : h.Wf)
    (hcan : h.canonical = false) {u w' : List Nat} {a b : Nat}
    (hu : u.length = h.k - 1) (hbw : u ++ [a] = b :: w') (rc : Nat) :
    h.inOutStep (h.fwF u, rc) (a, b) =
      ((h.fwF w', rc), h.windowHash (u ++ [a])) := by
  have hw' : w'.length = h.k - 1 := by
    have hlen := congrArg List.length hbw
    simp at hlen
    omega
  have hfwu : h.fwF (u ++ [a]) = h.f_rot b ^^^ h.fwF w' := by
    rw [hbw, h.fwF_cons W, hw', ← W.f_rot_eq]
  simp only [CharHasher.inOutStep, CharHasher.windowHash, CharHasher.combine,
    hcan, if_false, Bool.false_eq_true]
  rw [← h.fwF_concat u a, hfwu, xor_xor_self_left]

/-- Running the canonical in/out mapper over the zipped in/out stream with
pending buffer `u` emits exactly the window hashes of `u ++ s`. -/
theorem CharHasher.run_true (h : CharHasher) (W : h.Wf) (hcan : h.canonical = true)
    (hk : 1 ≤ h.k) :
    ∀ (s u : List Nat), u.length = h.k - 1 →
      mapAccum h.inOutStep (h.fwF u, h.rcF u) (s.zip (u ++ s)) =
        (windowsList h.k (u ++ s)).map h.windowHash
  | [], u, hu => by
    have h0 : u.length + 1 - h.k = 0 := by omega
    simp [windowsList, h0]
  | a :: s', u, hu => by
    obtain ⟨b, w', hbw⟩ : ∃ b w', u ++ [a] = b :: w' := by
      cases u with
      | nil => exact ⟨a, [], rfl⟩
      | cons x xs => exact ⟨x, xs ++ [a], rfl⟩
    have hw' : w'.length = h.k - 1 := by
      have hlen := congrArg List.length hbw
      simp at hlen
      omega
    have hzip : (a :: s').zip (u ++ a :: s') = (a, b) :: s'.zip (w' ++ s') := by
      rw [List.append_cons u a s', hbw]
      rfl
    have hwin : windowsList h.k (u ++ a :: s') =
        (u ++ [a]) :: windowsList h.k (w' ++ s') := by
      conv_lhs => rw [List.append_cons u a s']
      rw [hbw, show (b :: w') ++ s' = b :: (w' ++ s') from rfl,
        windowsList_cons (by simp; omega)]
      congr 1
      obtain ⟨m, hm⟩ : ∃ m, h.k = m + 1 := ⟨h.k - 1, by omega⟩
      rw [hm, List.take_succ_cons, List.take_left' (by omega)]
    rw [hzip, mapAccum_cons, h.inOutStep_spec_true W hcan hu hbw]
    show h.windowHash (u ++ [a]) ::
        mapAccum h.inOutStep (h.fwF w', h.rcF w') (s'.zip (w' ++ s')) = _
    rw [h.run_true W hcan hk s' w' hw', hwin, List.map_cons]

/-- Forward variant of `run_true`; the `rc` state component is arbitrary. -/
theorem CharHasher.run_false (h : CharHasher) (W : h.Wf) (hcan : h.canonical = false)
    (hk : 1 ≤ h.k) :
    ∀ (s u : List Nat) (rc : Nat), u.length = h.k - 1 →
      mapAccum h.inOutStep (h.fwF u, rc) (s.zip (u ++ s)) =
        (windowsList h.k (u ++ s)).map h.windowHash
  | [], u, rc, hu => by
    have h0 : u.length + 1 - h.k = 0 := by omega
    simp [windowsList, h0]
  | a :: s', u, rc, hu => by
    obtain ⟨b, w', hbw⟩ : ∃ b w', u ++ [a] = b :: w' := by
      cases u with
      | nil => exact ⟨a, [], rfl⟩
      | cons x xs => exact ⟨x, xs ++ [a], rfl⟩
    have hw' : w'.length = h.k - 1 := by
      have hlen := congrArg List.length hbw
      simp at hlen
      omega
    have hzip : (a :: s').zip (u ++ a :: s') = (a, b) :: s'.zip (w' ++ s') := by
      rw [List.append_cons u a s', hbw]
      rfl
    have hwin : windowsList h.k (u ++ a :: s') =
        (u ++ [a]) :: windowsList h.k (w' ++ s') := by
      conv_lhs => rw [List.append_cons u a s']
      rw [hbw, show (b :: w') ++ s' = b :: (w' ++ s') from rfl,
        windowsList_cons (by simp; omega)]
      congr 1
      obtain ⟨m, hm⟩ : ∃ m, h.k = m + 1 := ⟨h.k - 1, by omega⟩
      rw [hm, List.take_succ_cons, List.take_left' (by omega)]
    rw [hzip, mapAccum_cons, h.inOutStep_spec_false W hcan hu hbw rc]
    show h.windowHash (u ++ [a]) ::
        mapAccum h.inOutStep (h.fwF w', rc) (s'.zip (w' ++ s')) = _
    rw [h.run_false W hcan hk s' w' rc hw', hwin, List.map_cons]

theorem foldl_replicate {σ α : Type} (f : σ → α → σ) (x : α) :
    ∀ (n : Nat) (st : σ), (List.replicate n x).foldl f st = iterN (fun s => f s x) n st
  | 0, _ => rfl
  | n + 1, st => by
    rw [List.replicate_succ]
    exact foldl_replicate f x n (f st x)

theorem CharHasher.fw_init_eq (h : CharHasher) :
    h.fw_init = h.fwF (List.replicate (h.k - 1) 0) := by
  unfold fw_init fwF fwFoldFrom
  rw [foldl_replicate]

theorem CharHasher.rc_init_eq (h : CharHasher) :
    h.rc_init = h.rcF (List.replicate (h.k - 1) 0) := by
  unfold rc_init rcF rcFoldFrom
  rw [foldl_replicate]

/-- The scalar streaming iterator of a CharHasher-based hasher emits exactly
the per-window hashes. -/
theorem CharHasher.hash_kmers_scalar_eq (h : CharHasher) (W : h.Wf) (hk : 1 ≤ h.k)
    (s : List Nat) :
    h.hash_kmers_scalar s = (windowsList h.k s).map h.windowHash := by
  unfold hash_kmers_scalar
  rw [hashKmersScalarWith_eq_drop hk (Nat.le_refl _) _ _ s]
  have hu : (List.replicate (h.k - 1) (0 : Nat)).length = h.k - 1 :=
    List.length_replicate ..
  have hps : pairStream (h.k - 1) s = s.zip (List.replicate (h.k - 1) 0 ++ s) := rfl
  rw [hps, h.fw_init_eq, h.rc_init_eq]
  cases hcan : h.canonical
  · rw [h.run_false W hcan hk s _ _ hu, ← List.map_drop, windowsList_append_drop hu hk]
  · rw [h.run_true W hcan hk s _ hu, ← List.map_drop, windowsList_append_drop hu hk]

theorem CharHasher.foldSt_mapStep (h : CharHasher) :
    ∀ (w : List Nat) (st : Nat × Nat),
      foldSt h.mapStep st w =
        (h.fwFoldFrom st.1 w, if h.canonical then h.rcFoldFrom st.2 w else st.2)
  | [], st => by cases hc : h.canonical <;> simp [fwFoldFrom, rcFoldFrom]
  | a :: w, st => by
    rw [foldSt_cons, h.foldSt_mapStep w _]
    cases hc : h.canonical
    · have h1 : (h.mapStep st a).1 = (rotl st.1 h.R ^^^ h.f a, st.2) := by
        simp [CharHasher.mapStep, hc]
      rw [h1]
      simp only [hc, Bool.false_eq_true, if_false]
      rfl
    · have h1 : (h.mapStep st a).1 =
          (rotl st.1 h.R ^^^ h.f a, rotr st.2 h.R ^^^ h.c_rot a) := by
        simp [CharHasher.mapStep, hc]
      rw [h1]
      simp only [hc, if_true]
      rfl

/-- One-shot hashing of a non-empty sequence yields the window hash of the
whole sequence. -/
theorem CharHasher.hash_seq_eq (h : CharHasher) (W : h.Wf) (w : List Nat)
    (hw : w ≠ []) : h.hash_seq w = h.windowHash w := by
  unfold hash_seq
  have hg : ∀ st a, (h.mapStep st a).2 =
      (fun st : Nat × Nat => h.combine st.1 st.2) (h.mapStep st a).1 := by
    intro st a
    unfold mapStep combine
    cases h.canonical <;> simp
  rw [mapAccum_getLastD h.mapStep (fun st : Nat × Nat => h.combine st.1 st.2)
    hg 0 w _ hw, h.foldSt_mapStep w (0, 0)]
  show h.combine (h.fwFoldFrom 0 w) (if h.canonical then h.rcFoldFrom 0 w else 0) =
    h.windowHash w
  cases hc : h.canonical <;>
    simp [hc, CharHasher.windowHash, CharHasher.combine, CharHasher.fwF,
      CharHasher.rcF]

/-! ### NtHasher -/

/-- The original ntHash seed values (`HASHES_F`), truncated from the 64-bit
literals to `u32` as by the `as u32` casts in the source. -/
def HASHES_F : List Nat := [0x95c60474, 0x62a02b4c, 0x82572324, 0x4be24456]

theorem HASHES_F_getD_lt (b : Nat) : HASHES_F.getD b 0 < 2 ^ 32 := by
  rcases b with _ | _ | _ | _ | b <;> simp [HASHES_F] <;> decide

/-- The per-symbol table of `NtHasher`: the raw table when unseeded, or each
entry remixed through Rust's `DefaultHasher` (modelled by the opaque function
`hashOne`, truncated to 32 bits by the `as u32` cast) XORed with the seed. -/
def ntF (hashOne : Nat → Nat) (seed : Option Nat) (b : Nat) : Nat :=
  match seed with
  | none => HASHES_F.getD b 0
  | some sd => hashOne (HASHES_F.getD b 0 ^^^ sd) % 2 ^ 32

theorem ntF_lt (hashOne : Nat → Nat) (seed : Option Nat) (b : Nat) :
    ntF hashOne seed b < 2 ^ 32 := by
  cases seed with
  | none => exact HASHES_F_getD_lt b
  | some sd => exact Nat.mod_lt _ (by norm_num)

/-- `NtHasher<CANONICAL, R>` constructed with `new_with_seed(k, seed)`:
a 4-entry table hasher over the 2-bit alphabet.  The complement table is the
base table permuted by `complement_base`, and the rotated tables pre-rotate by
`(k-1)*R` bits (the `u32` product `rot * R` wraps modulo `2^32`, which leaves
the rotation amount unchanged modulo 32 since `32` divides `2^32`). -/
def NtHasher (canonical : Bool) (R k : Nat) (hashOne : Nat → Nat)
    (seed : Option Nat) : CharHasher :=
  { k := k
    R := R
    canonical := canonical
    bits_per_char := 2
    f := fun b => ntF hashOne seed b
    c := fun b => ntF hashOne seed (complement_base b)
    f_rot := fun b => rotl (ntF hashOne seed b) ((k - 1) * R)
    c_rot := fun b => rotl (ntF hashOne seed (complement_base b)) ((k - 1) * R) }

theorem NtHasher_wf (canonical : Bool) (R k : Nat) (hashOne : Nat → Nat)
    (seed : Option Nat) : (NtHasher canonical R k hashOne seed).Wf := by
  constructor <;> intro b <;>
    first
      | exact ntF_lt hashOne seed _
      | rfl

/-! ### MulHasher -/

/-- The fixed mixing constant `C`, truncated from `0x517cc1b727220a95u64` to
`u32`. -/
def MUL_C : Nat := 0x27220a95

/-- The multiplier of `MulHasher`: `C`, XORed for seeded instances with the
`DefaultHasher` output of the seed shifted left by one (the `u32` shift wraps
modulo `2^32`). -/
def mulConst (hashOne : Nat → Nat) (seed : Option Nat) : Nat :=
  MUL_C ^^^ (match seed with
    | none => 0
    | some sd => ((hashOne sd % 2 ^ 32) <<< 1) % 2 ^ 32)

theorem mulConst_lt (hashOne : Nat → Nat) (seed : Option Nat) :
    mulConst hashOne seed < 2 ^ 32 := by
  cases seed with
  | none =>
    show MUL_C ^^^ 0 < 2 ^ 32
    decide
  | some sd =>
    show MUL_C ^^^ (((hashOne sd % 2 ^ 32) <<< 1) % 2 ^ 32) < 2 ^ 32
    exact Nat.xor_lt_two_pow (by decide) (Nat.mod_lt _ (by norm_num))

/-- `MulHasher<CANONICAL, R>` constructed with `new_with_seed(k, seed)`:
multiplicative per-symbol hashing for alphabets of up to 8 bits.  Its stored
rotation `rot` is `(k-1) % 32` and the rotated forms rotate by `rot * R`. -/
def MulHasher (canonical : Bool) (R k : Nat) (hashOne : Nat → Nat)
    (seed : Option Nat) : CharHasher :=
  { k := k
    R := R
    canonical := canonical
    bits_per_char := 8
    f := fun b => b * mulConst hashOne seed % 2 ^ 32
    c := fun b => complement_base b * mulConst hashOne seed % 2 ^ 32
    f_rot := fun b => rotl (b * mulConst hashOne seed % 2 ^ 32) ((k - 1) % 32 * R)
    c_rot := fun b =>
      rotl (complement_base b * mulConst hashOne seed % 2 ^ 32) ((k - 1) % 32 * R) }

theorem MulHasher_wf (canonical : Bool) (R k : Nat) (hashOne : Nat → Nat)
    (seed : Option Nat) : (MulHasher canonical R k hashOne seed).Wf := by
  have hrot : ∀ x : Nat, rotl x ((k - 1) % 32 * R) = rotl x ((k - 1) * R) :=
    fun x => rotl_congr_amount _ _ ((Nat.mod_modEq (k - 1) 32).mul_right R)
  constructor <;> intro b
  · exact Nat.mod_lt _ (by norm_num)
  · exact Nat.mod_lt _ (by norm_num)
  · exact hrot _
  · exact hrot _
  · rfl

/-! ### SIMD lane semantics -/

/-- One lane of a `wide::u32x8` left shift; x86 vector shifts yield `0` for
counts of 32 or more. -/
def simd_shl (x n : Nat) : Nat := if 32 ≤ n then 0 else (x <<< n) % 2 ^ 32

/-- One lane of a `wide::u32x8` right shift. -/
def simd_shr (x n : Nat) : Nat := if 32 ≤ n then 0 else x >>> n

/-- The SIMD idiom `(x << n) | (x >> (32 - n))` equals a rotation for `n < 32`
(at `n = 0` the right shift by 32 yields a zero lane). -/
theorem simd_rotl {x : Nat} (hx : x < 2 ^ 32) {n : Nat} (hn : n < 32) :
    simd_shl x n ||| simd_shr x (32 - n) = rotl x n := by
  unfold simd_shl simd_shr rotl
  have hnm : n % 32 = n := Nat.mod_eq_of_lt hn
  rcases Nat.eq_zero_or_pos n with h0 | hpos
  · subst h0
    rw [if_neg (by omega), if_pos (by omega), hnm]
    simp [shiftRight_eq_zero hx]
  · rw [if_neg (by omega), if_neg (by omega), hnm]

theorem simd_rotr {x : Nat} (hx : x < 2 ^ 32) {n : Nat} (hn : n < 32) :
    simd_shr x n ||| simd_shl x (32 - n) = rotr x n := by
  unfold simd_shl simd_shr rotr
  have hnm : n % 32 = n := Nat.mod_eq_of_lt hn
  rcases Nat.eq_zero_or_pos n with h0 | hpos
  · subst h0
    rw [if_neg (by omega), if_pos (by omega), hnm]
    simp [Nat.shiftLeft_eq, Nat.mul_mod_left]
  · rw [if_neg (by omega), if_neg (by omega), hnm]

/-- One lane of the SIMD in/out mapper
(`impl<CH: CharHasher> KmerHasher for CH :: in_out_mapper_simd`), parametrised
by the per-lane forms of `simd_f`, `simd_c`, `simd_f_rot`, `simd_c_rot`. -/
def inOutStepSimdLane (R : Nat) (canonical : Bool) (sf sc sfr scr : Nat → Nat)
    (st : Nat × Nat) (ar : Nat × Nat) : (Nat × Nat) × Nat :=
  let fw_out := (simd_shl st.1 R ||| simd_shr st.1 (32 - R)) ^^^ sf ar.1
  let fw1 := fw_out ^^^ sfr ar.2
  if canonical then
    let rc_out := (simd_shr st.2 R ||| simd_shl st.2 (32 - R)) ^^^ scr ar.1
    ((fw1, rc_out ^^^ sc ar.2), (fw_out + rc_out) % 2 ^ 32)
  else
    ((fw1, st.2), fw_out)

/-- Modelled from the spec: `intrinsics::table_lookup` (the `intrinsics`
module is repository code not present under src/) performs the 8-wide,
per-lane equivalent of the scalar 4-entry table lookup, so for a table-based
CharHasher the per-lane `simd_f` etc. are the scalar `f` etc. -/
def CharHasher.inOutStepSimdTbl (h : CharHasher) :
    (Nat × Nat) → (Nat × Nat) → (Nat × Nat) × Nat :=
  inOutStepSimdLane h.R h.canonical h.f h.c h.f_rot h.c_rot

theorem CharHasher.inOutStepSimdTbl_agree (h : CharHasher) (hR : h.R < 32)
    (st : Nat × Nat) (ar : Nat × Nat) (h1 : st.1 < 2 ^ 32) (h2 : st.2 < 2 ^ 32) :
    h.inOutStepSimdTbl st ar = h.inOutStep st ar := by
  unfold inOutStepSimdTbl inOutStepSimdLane inOutStep
  rw [simd_rotl h1 hR, simd_rotr h2 hR]

theorem CharHasher.inOutStep_bounded (h : CharHasher) (W : h.Wf)
    (st : Nat × Nat) (ar : Nat × Nat) (h1 : st.1 < 2 ^ 32) (h2 : st.2 < 2 ^ 32) :
    (h.inOutStep st ar).1.1 < 2 ^ 32 ∧ (h.inOutStep st ar).1.2 < 2 ^ 32 := by
  have hf : h.f ar.1 < 2 ^ 32 := W.f_lt _
  have hfro : h.f_rot ar.2 < 2 ^ 32 := by
    rw [W.f_rot_eq]
    exact rotl_lt (W.f_lt _) _
  have hcr : h.c_rot ar.1 < 2 ^ 32 := by
    rw [W.c_rot_eq]
    exact rotl_lt (W.c_lt _) _
  unfold inOutStep
  cases h.canonical
  · simp only [Bool.false_eq_true, if_false]
    exact ⟨Nat.xor_lt_two_pow (Nat.xor_lt_two_pow (rotl_lt h1 _) hf) hfro, h2⟩
  · simp only [if_true]
    exact ⟨Nat.xor_lt_two_pow (Nat.xor_lt_two_pow (rotl_lt h1 _) hf) hfro,
      Nat.xor_lt_two_pow (Nat.xor_lt_two_pow (rotr_lt h2 _) hcr) (W.c_lt _)⟩

/-- Modelled from the spec: `hash_kmers_simd(seq, context)` feeds the SIMD
in/out mapper with the 8-lane delayed pair stream produced by the external
`packed_seq::par_iter_bp_delayed(context + k - 1, delay)` and advances the
output by `k - 1` positions, marking trailing entries as padding for the
caller to discard.  Each lane traverses one contiguous chunk of the input
under the same delayed in/out protocol, so after discarding padding a lane
whose chunk is `s` carries exactly the following hashes; `context` only
governs how much chunk overlap the external splitter provides. -/
def hashKmersSimdLaneWith (k d : Nat) (step : σ → Nat × Nat → σ × Nat) (st0 : σ)
    (s : List Nat) : List Nat :=
  (mapAccum step st0 (pairStream d s)).drop (k - 1)

/-- The SIMD hash stream of one lane, for a table-based CharHasher. -/
def CharHasher.hash_kmers_simd_lane_tbl (h : CharHasher) (s : List Nat) : List Nat :=
  hashKmersSimdLaneWith h.k (h.k - 1) h.inOutStepSimdTbl (h.fw_init, h.rc_init) s

theorem CharHasher.fw_init_lt (h : CharHasher) (W : h.Wf) : h.fw_init < 2 ^ 32 := by
  rw [h.fw_init_eq]
  exact h.fwF_lt W _

theorem CharHasher.rc_init_lt (h : CharHasher) (W : h.Wf) : h.rc_init < 2 ^ 32 := by
  rw [h.rc_init_eq]
  exact h.rcF_lt W _

/-- On any lane, the SIMD stream of a table-based CharHasher coincides with
the scalar stream. -/
theorem CharHasher.hash_kmers_simd_lane_tbl_eq (h : CharHasher) (W : h.Wf)
    (hk : 1 ≤ h.k) (hR : h.R < 32) (s : List Nat) :
    h.hash_kmers_simd_lane_tbl s = h.hash_kmers_scalar s := by
  unfold hash_kmers_simd_lane_tbl hashKmersSimdLaneWith hash_kmers_scalar
  rw [hashKmersScalarWith_eq_drop hk (Nat.le_refl _)]
  congr 1
  refine mapAccum_congr (fun st => st.1 < 2 ^ 32 ∧ st.2 < 2 ^ 32) _ _
    (fun st ar hst => h.inOutStepSimdTbl_agree hR st ar hst.1 hst.2)
    (fun st ar hst => ?_) _ _ ⟨h.fw_init_lt W, h.rc_init_lt W⟩
  rw [h.inOutStepSimdTbl_agree hR st ar hst.1 hst.2]
  exact h.inOutStep_bounded W st ar hst.1 hst.2

/-- The per-lane form of `MulHasher::simd_f_rot` / `simd_c_rot`: multiply,
then rotate via explicit shifts by `rot * R % 32`. -/
def mulSimdFRot (m rotv b : Nat) : Nat :=
  simd_shl (b * m % 2 ^ 32) rotv ||| simd_shr (b * m % 2 ^ 32) (32 - rotv)

/-- One lane of `MulHasher`'s SIMD in/out mapper, with the arithmetic per-lane
operations of `simd_f`, `simd_c`, `simd_f_rot`, `simd_c_rot` (the per-lane
complement `complement_base_simd` is modelled from the spec like its scalar
counterpart). -/
def MulHasher.inOutStepSimd (canonical : Bool) (R k : Nat) (hashOne : Nat → Nat)
    (seed : Option Nat) : (Nat × Nat) → (Nat × Nat) → (Nat × Nat) × Nat :=
  inOutStepSimdLane R canonical
    (fun b => b * mulConst hashOne seed % 2 ^ 32)
    (fun b => complement_base b * mulConst hashOne seed % 2 ^ 32)
    (fun b => mulSimdFRot (mulConst hashOne seed) ((k - 1) % 32 * R % 32) b)
    (fun b => mulSimdFRot (mulConst hashOne seed) ((k - 1) % 32 * R % 32)
      (complement_base b))

theorem mulSimdFRot_eq (m rotv b : Nat) (hr : rotv < 32) :
    mulSimdFRot m rotv b = rotl (b * m % 2 ^ 32) rotv := by
  unfold mulSimdFRot
  exact simd_rotl (Nat.mod_lt _ (by norm_num)) hr

theorem MulHasher.inOutStepSimd_agree (canonical : Bool) (R k : Nat)
    (hashOne : Nat → Nat) (seed : Option Nat) (hR : R < 32)
    (st : Nat × Nat) (ar : Nat × Nat) (h1 : st.1 < 2 ^ 32) (h2 : st.2 < 2 ^ 32) :
    MulHasher.inOutStepSimd canonical R k hashOne seed st ar =
      (MulHasher canonical R k hashOne seed).inOutStep st ar := by
  have hrv : (k - 1) % 32 * R % 32 < 32 := Nat.mod_lt _ (by norm_num)
  have hcong : ∀ x : Nat, rotl x ((k - 1) % 32 * R % 32) = rotl x ((k - 1) % 32 * R) :=
    fun x => rotl_congr_amount _ _ (by omega)
  unfold MulHasher.inOutStepSimd inOutStepSimdLane MulHasher CharHasher.inOutStep
  simp only
  rw [simd_rotl h1 hR, simd_rotr h2 hR, mulSimdFRot_eq _ _ _ hrv,
    mulSimdFRot_eq _ _ _ hrv, hcong, hcong]

/-- The SIMD hash stream of one lane, for `MulHasher`. -/
def MulHasher.hash_kmers_simd_lane (canonical : Bool) (R k : Nat)
    (hashOne : Nat → Nat) (seed : Option Nat) (s : List Nat) : List Nat :=
  hashKmersSimdLaneWith k (k - 1) (MulHasher.inOutStepSimd canonical R k hashOne seed)
    ((MulHasher canonical R k hashOne seed).fw_init,
      (MulHasher canonical R k hashOne seed).rc_init) s

theorem MulHasher.hash_kmers_simd_lane_eq (canonical : Bool) (R k : Nat)
    (hashOne : Nat → Nat) (seed : Option Nat) (hk : 1 ≤ k) (hR : R < 32)
    (s : List Nat) :
    MulHasher.hash_kmers_simd_lane canonical R k hashOne seed s =
      (MulHasher canonical R k hashOne seed).hash_kmers_scalar s := by
  have W := MulHasher_wf canonical R k hashOne seed
  unfold MulHasher.hash_kmers_simd_lane hashKmersSimdLaneWith
    CharHasher.hash_kmers_scalar
  rw [show (MulHasher canonical R k hashOne seed).k = k from rfl,
    hashKmersScalarWith_eq_drop hk (Nat.le_refl _)]
  congr 1
  refine mapAccum_congr (fun st => st.1 < 2 ^ 32 ∧ st.2 < 2 ^ 32) _ _
    (fun st ar hst => MulHasher.inOutStepSimd_agree canonical R k hashOne seed hR
      st ar hst.1 hst.2)
    (fun st ar hst => ?_) _ _
    ⟨(MulHasher canonical R k hashOne seed).fw_init_lt W,
      (MulHasher canonical R k hashOne seed).rc_init_lt W⟩
  rw [MulHasher.inOutStepSimd_agree canonical R k hashOne seed hR st ar hst.1 hst.2]
  exact (MulHasher canonical R k hashOne seed).inOutStep_bounded W st ar hst.1 hst.2

/-! ### Naive per-window hashing -/

theorem length_of_mem_windowsList {k : Nat} {t : List Nat} {w : List Nat}
    (hw : w ∈ windowsList k t) : w.length = k := by
  unfold windowsList at hw
  rw [List.mem_map] at hw
  obtain ⟨i, hi, rfl⟩ := hw
  rw [List.mem_range] at hi
  rw [List.length_take, List.length_drop]
  omega

/-- Naive hashing: `hash_seq` applied to each window agrees with the window
hash. -/
theorem CharHasher.naive_eq (h : CharHasher) (W : h.Wf) (hk : 1 ≤ h.k)
    (s : List Nat) :
    (windowsList h.k s).map h.hash_seq = (windowsList h.k s).map h.windowHash :=
  List.map_congr_left fun w hw => by
    refine h.hash_seq_eq W w fun hnil => ?_
    have hlen := length_of_mem_windowsList hw
    rw [hnil] at hlen
    simp at hlen
    omega

/-! ### Reverse complement -/

/-- `to_revcomp` of the external sequence crate: reverse the sequence and
complement every symbol. -/
def revcomp (s : List Nat) : List Nat := (s.map complement_base).reverse

@[simp] theorem length_revcomp (s : List Nat) : (revcomp s).length = s.length := by
  simp [revcomp]

theorem complement_base_involutive (b : Nat) :
    complement_base (complement_base b) = b := by
  unfold complement_base
  exact Nat.xor_cancel_right 2 b

theorem revcomp_revcomp (s : List Nat) : revcomp (revcomp s) = s := by
  unfold revcomp
  rw [List.map_reverse, List.reverse_reverse, List.map_map]
  have hcc : complement_base ∘ complement_base = id := funext complement_base_involutive
  rw [hcc, List.map_id]

theorem revcomp_concat (w : List Nat) (x : Nat) :
    revcomp (w ++ [x]) = complement_base x :: revcomp w := by
  unfold revcomp
  simp

/-- The reverse-complement accumulator over `u` is the forward accumulator of
the reverse complement of `u`, rotated left by `(k - |u|) * R` bits. -/
theorem CharHasher.rcF_eq_fwF_revcomp (h : CharHasher) (W : h.Wf) (u : List Nat) :
    u.length ≤ h.k →
      h.rcF u = rotl (h.fwF (revcomp u)) ((h.k - u.length) * h.R) := by
  induction u using List.reverseRecOn with
  | nil =>
    intro _
    simp [CharHasher.rcF, CharHasher.rcFoldFrom, CharHasher.fwF,
      CharHasher.fwFoldFrom, revcomp]
  | append_singleton q x ih =>
    intro hlen
    have hql : (q ++ [x]).length = q.length + 1 := by simp
    have hqlt : q.length < h.k := by omega
    have hq : q.length ≤ h.k := by omega
    have hfwrq : h.fwF (revcomp q) < 2 ^ 32 := h.fwF_lt W _
    rw [h.rcF_concat, ih hq, W.c_rot_eq, W.c_eq, revcomp_concat, h.fwF_cons W,
      rotr_rotl_of_le hfwrq (Nat.le_mul_of_pos_left h.R (by omega)),
      rotl_xor (rotl_lt (W.f_lt _) _) hfwrq, rotl_rotl (W.f_lt _), length_revcomp]
    have e1 : (h.k - q.length) * h.R - h.R = (h.k - (q ++ [x]).length) * h.R := by
      rw [hql, show h.k - (q.length + 1) = h.k - q.length - 1 from by omega]
      conv_rhs => rw [Nat.sub_mul, Nat.one_mul]
    have e2 : q.length * h.R + (h.k - (q ++ [x]).length) * h.R = (h.k - 1) * h.R := by
      rw [← Nat.add_mul, hql]
      congr 1
      omega
    rw [e1, e2, Nat.xor_comm]

/-- Canonical CharHasher window hashes are reverse-complement invariant. -/
theorem CharHasher.windowHash_revcomp (h : CharHasher) (W : h.Wf)
    (hcan : h.canonical = true) (w : List Nat) (hw : w.length = h.k) :
    h.windowHash (revcomp w) = h.windowHash w := by
  have h1 : h.rcF w = h.fwF (revcomp w) := by
    have hrc := h.rcF_eq_fwF_revcomp W w (Nat.le_of_eq hw)
    rw [hw, Nat.sub_self, Nat.zero_mul, rotl_zero_amount (h.fwF_lt W _)] at hrc
    exact hrc
  have h2 : h.rcF (revcomp w) = h.fwF w := by
    have hrc := h.rcF_eq_fwF_revcomp W (revcomp w) (by rw [length_revcomp, hw])
    rw [length_revcomp, hw, Nat.sub_self, Nat.zero_mul, revcomp_revcomp,
      rotl_zero_amount (h.fwF_lt W _)] at hrc
    exact hrc
  unfold windowHash combine
  rw [hcan, if_pos rfl, if_pos rfl, h1, h2, Nat.add_comm]

/-- The windows of the reverse complement are the reverse complements of the
windows, in reverse order. -/
theorem windowsList_revcomp (k : Nat) (hk : 1 ≤ k) (s : List Nat) :
    windowsList k (revcomp s) = ((windowsList k s).map revcomp).reverse := by
  apply List.ext_getElem
  · simp [length_windowsList]
  · intro i h1 h2
    have hn : i < s.length + 1 - k := by
      simpa [length_windowsList] using h1
    rw [getElem_windowsList, List.getElem_reverse, List.getElem_map,
      getElem_windowsList]
    apply List.ext_getElem
    · simp only [List.length_take, List.length_drop, length_revcomp,
        List.length_map, List.length_reverse, length_windowsList]
      omega
    · intro j hj1 hj2
      simp only [List.length_take, List.length_drop, length_revcomp,
        List.length_map, List.length_reverse, length_windowsList] at hj1 hj2
      simp only [revcomp, List.getElem_take, List.getElem_drop,
        List.getElem_reverse, List.getElem_map, List.length_map,
        List.length_take, List.length_drop, List.length_reverse,
        length_windowsList]
      congr 2
      omega

/-- Canonical streaming: the scalar hash stream of `s`, reversed, is the
scalar hash stream of the reverse complement of `s`. -/
theorem CharHasher.hash_kmers_scalar_revcomp (h : CharHasher) (W : h.Wf)
    (hcan : h.canonical = true) (hk : 1 ≤ h.k) (s : List Nat) :
    (h.hash_kmers_scalar s).reverse = h.hash_kmers_scalar (revcomp s) := by
  rw [h.hash_kmers_scalar_eq W hk s, h.hash_kmers_scalar_eq W hk (revcomp s),
    windowsList_revcomp h.k hk s, List.map_reverse, List.map_map]
  congr 1
  apply List.map_congr_left
  intro w hw
  exact (h.windowHash_revcomp W hcan w (length_of_mem_windowsList hw)).symm

/-! ### AntiLexHasher -/

/-- `AntiLexHasher<CANONICAL>` with its constants as derived by `new(k)`
for the 2-bit alphabet (`b = 2`). -/
structure AntiLexHasher where
  canonical : Bool
  k : Nat

/-- Number of bits per character (the `b` field, always 2). -/
def AntiLexHasher.b (_ : AntiLexHasher) : Nat := 2

/-- Number of bits to shift each new character up to make it the most
significant one: `b * (k - 1)` when `b * k ≤ 32`, else `32 - b`. -/
def AntiLexHasher.shift (h : AntiLexHasher) : Nat :=
  if 2 * h.k ≤ 32 then 2 * (h.k - 1) else 30

/-- Mask flipping the bits of the most significant character. -/
def AntiLexHasher.anti (h : AntiLexHasher) : Nat := 3 <<< h.shift

/-- Mask keeping only the lowest `k * b` bits. -/
def AntiLexHasher.mask (h : AntiLexHasher) : Nat :=
  if 2 * h.k < 32 then 2 ^ (2 * h.k) - 1 else 2 ^ 32 - 1

/-- The number of symbols actually contributing to an AntiLex hash:
`min k 16` for the 2-bit alphabet. -/
def AntiLexHasher.kk (h : AntiLexHasher) : Nat := min h.k 16

/-- `KmerHasher::delay()` of the AntiLex hashers: the canonical instance
overrides the trait default `k - 1` with `k.saturating_sub(32 / b)`; the
forward instance keeps the default. -/
def AntiLexHasher.delay (h : AntiLexHasher) : Nat :=
  if h.canonical then h.k - 32 / 2 else h.k - 1

theorem AntiLexHasher.shift_eq (h : AntiLexHasher) (hk : 1 ≤ h.k) :
    h.shift = 2 * (h.kk - 1) := by
  unfold shift kk
  by_cases hle : 2 * h.k ≤ 32
  · rw [if_pos hle, Nat.min_eq_left (by omega)]
  · rw [if_neg hle, Nat.min_eq_right (by omega)]

theorem AntiLexHasher.mask_eq (h : AntiLexHasher) (hk : 1 ≤ h.k) :
    h.mask = 2 ^ (2 * h.kk) - 1 := by
  unfold mask kk
  by_cases hlt : 2 * h.k < 32
  · rw [if_pos hlt, Nat.min_eq_left (by omega)]
  · rw [if_neg hlt, Nat.min_eq_right (by omega)]

theorem AntiLexHasher.kk_pos (h : AntiLexHasher) (hk : 1 ≤ h.k) : 1 ≤ h.kk := by
  unfold kk
  omega

/-- `AntiLexHasher<false>::in_out_mapper_scalar`: slide the window register
down and XOR the incoming symbol at the top; the outgoing symbol is ignored. -/
def AntiLexHasher.inOutStepFwd (h : AntiLexHasher) (fw : Nat) (ar : Nat × Nat) :
    Nat × Nat :=
  let fw1 := (fw >>> 2) ^^^ ((ar.1 <<< h.shift) % 2 ^ 32)
  (fw1, fw1 ^^^ h.anti)

/-- `AntiLexHasher<true>::in_out_mapper_scalar`: the forward register tracks
incoming symbols, the reverse-complement register tracks outgoing symbols
(complement = XOR 2), and the output is the minimum of the two. -/
def AntiLexHasher.inOutStepCan (h : AntiLexHasher) (st : Nat × Nat) (ar : Nat × Nat) :
    (Nat × Nat) × Nat :=
  ((((st.1 >>> 2) ^^^ ((ar.1 <<< h.shift) % 2 ^ 32)),
    ((((st.2 <<< 2) % 2 ^ 32) &&& h.mask) ^^^ (ar.2 ^^^ 2))),
   min (((st.1 >>> 2) ^^^ ((ar.1 <<< h.shift) % 2 ^ 32)) ^^^ h.anti)
       (((((st.2 <<< 2) % 2 ^ 32) &&& h.mask) ^^^ (ar.2 ^^^ 2)) ^^^ h.anti))

/-- `hash_kmers_scalar` for the forward AntiLex hasher (trait-default delay
`k - 1`). -/
def AntiLexHasher.hash_kmers_scalar_fwd (h : AntiLexHasher) (s : List Nat) :
    List Nat :=
  hashKmersScalarWith h.k (h.k - 1)
    (fun fw ar => h.inOutStepFwd fw ar) 0 s

/-- `hash_kmers_scalar` for the canonical AntiLex hasher
(delay `k.saturating_sub(32 / b) = k - 16`). -/
def AntiLexHasher.hash_kmers_scalar_can (h : AntiLexHasher) (s : List Nat) :
    List Nat :=
  hashKmersScalarWith h.k (h.k - 32 / 2) h.inOutStepCan (0, 0) s

/-! Accumulator folds of the AntiLex hashers. -/

/-- Fold of the forward AntiLex register update with top-insertion shift `sh`. -/
def encFwFrom (sh st : Nat) (p : List Nat) : Nat :=
  p.foldl (fun fw a => (fw >>> 2) ^^^ ((a <<< sh) % 2 ^ 32)) st

def encFw (sh : Nat) (p : List Nat) : Nat := encFwFrom sh 0 p

/-- Fold of the canonical AntiLex reverse-complement register update with a
fixed window mask. -/
def rcMFrom (mask st : Nat) (p : List Nat) : Nat :=
  p.foldl (fun rc r => (((rc <<< 2) % 2 ^ 32) &&& mask) ^^^ (r ^^^ 2)) st

def rcM (mask : Nat) (p : List Nat) : Nat := rcMFrom mask 0 p

/-- The same fold without wrap or mask; on short inputs they agree. -/
def plainRc (p : List Nat) : Nat :=
  p.foldl (fun rc r => (rc <<< 2) ^^^ (r ^^^ 2)) 0

theorem encFwFrom_concat (sh st : Nat) (p : List Nat) (a : Nat) :
    encFwFrom sh st (p ++ [a]) =
      (encFwFrom sh st p >>> 2) ^^^ ((a <<< sh) % 2 ^ 32) := by
  unfold encFwFrom
  rw [List.foldl_append]
  rfl

theorem encFwFrom_state (sh : Nat) :
    ∀ (p : List Nat) (st : Nat),
      encFwFrom sh st p = (st >>> (2 * p.length)) ^^^ encFw sh p
  | [], st => by
    simp [encFwFrom, encFw]
  | a :: p, st => by
    have h1 : encFwFrom sh st (a :: p) =
        encFwFrom sh ((st >>> 2) ^^^ ((a <<< sh) % 2 ^ 32)) p := rfl
    have h2 : encFw sh (a :: p) = encFwFrom sh ((a <<< sh) % 2 ^ 32) p := by
      unfold encFw
      show encFwFrom sh ((0 >>> 2) ^^^ ((a <<< sh) % 2 ^ 32)) p = _
      norm_num
    rw [h1, encFwFrom_state sh p _, h2, encFwFrom_state sh p _,
      shiftRight_xor_distrib, ← Nat.shiftRight_add, ← Nat.xor_assoc]
    congr 2
    · congr 1
      simp
      omega
  termination_by p => p.length

/-- Universe of the forward register: only the last `sh / 2 + 1` symbols
contribute; prepending symbols below that horizon changes nothing. -/
theorem encFw_prepend_vanish {sh : Nat} {a : Nat} (ha : a < 4) (p : List Nat)
    (hp : sh + 2 ≤ 2 * p.length) :
    encFw sh (a :: p) = encFw sh p := by
  have h2 : encFw sh (a :: p) = encFwFrom sh ((a <<< sh) % 2 ^ 32) p := by
    unfold encFw
    show encFwFrom sh ((0 >>> 2) ^^^ ((a <<< sh) % 2 ^ 32)) p = _
    norm_num
  have hsmall : (a <<< sh) % 2 ^ 32 < 2 ^ (sh + 2) := by
    apply Nat.lt_of_le_of_lt (Nat.mod_le _ _)
    rw [Nat.shiftLeft_eq]
    calc a * 2 ^ sh < 4 * 2 ^ sh := by
          exact Nat.mul_lt_mul_of_lt_of_le ha (Nat.le_refl _) (Nat.two_pow_pos sh)
      _ = 2 ^ (sh + 2) := by rw [Nat.pow_add, Nat.pow_succ]; ring
    
  have hz : ((a <<< sh) % 2 ^ 32) >>> (2 * p.length) = 0 :=
    shiftRight_eq_zero (Nat.lt_of_lt_of_le hsmall
      (Nat.pow_le_pow_right (by norm_num) hp))
  rw [h2, encFwFrom_state, hz, Nat.zero_xor]

theorem encFw_drop_prefix {sh : Nat} (q w : List Nat) (hq : ∀ b ∈ q, b < 4)
    (hw : sh + 2 ≤ 2 * w.length) :
    encFw sh (q ++ w) = encFw sh w := by
  induction q with
  | nil => rfl
  | cons a q ih =>
    have h1 : encFw sh ((a :: q) ++ w) = encFw sh (a :: (q ++ w)) := rfl
    rw [h1, encFw_prepend_vanish (hq a (by simp)) (q ++ w)
      (by rw [List.length_append]; omega)]
    exact ih (fun b hb => hq b (by simp [hb]))

/-- Changing the top-insertion shift from 30 down to `sh` only shifts the
register down, for 2-bit symbols. -/
theorem encFw_shift_of_le {sh : Nat} (hsh : sh ≤ 30) :
    ∀ (q : List Nat), (∀ b ∈ q, b < 4) →
      encFw sh q = encFw 30 q >>> (30 - sh) := by
  intro q
  induction q using List.reverseRecOn with
  | nil =>
    intro _
    simp [encFw, encFwFrom]
  | append_singleton p a ih =>
    intro hq
    have ha : a < 4 := hq a (by simp)
    have hnowrapS : (a <<< sh) % 2 ^ 32 = a <<< sh :=
      Nat.mod_eq_of_lt (shiftLeft_lt_two_pow (show a < 2 ^ 2 by omega) (by omega))
    have hnowrap30 : (a <<< 30) % 2 ^ 32 = a <<< 30 :=
      Nat.mod_eq_of_lt (shiftLeft_lt_two_pow (show a < 2 ^ 2 by omega) (by omega))
    have h1 : encFw sh (p ++ [a]) =
        (encFw sh p >>> 2) ^^^ ((a <<< sh) % 2 ^ 32) := encFwFrom_concat sh 0 p a
    have h2 : encFw 30 (p ++ [a]) =
        (encFw 30 p >>> 2) ^^^ ((a <<< 30) % 2 ^ 32) := encFwFrom_concat 30 0 p a
    rw [h1, h2, hnowrapS, hnowrap30, ih (fun b hb => hq b (by simp [hb])),
      shiftRight_xor_distrib, ← Nat.shiftRight_add, ← Nat.shiftRight_add,
      shiftLeft_shiftRight_of_le a (by omega)]
    have e1 : 30 - sh + 2 = 2 + (30 - sh) := by omega
    have e2 : 30 - (30 - sh) = sh := by omega
    rw [e1, e2]

theorem rcMFrom_concat (mask st : Nat) (p : List Nat) (r : Nat) :
    rcMFrom mask st (p ++ [r]) =
      (((rcMFrom mask st p <<< 2) % 2 ^ 32) &&& mask) ^^^ (r ^^^ 2) := by
  unfold rcMFrom
  rw [List.foldl_append]
  rfl

theorem plainRc_concat (p : List Nat) (r : Nat) :
    plainRc (p ++ [r]) = (plainRc p <<< 2) ^^^ (r ^^^ 2) := by
  unfold plainRc
  rw [List.foldl_append]
  rfl

theorem plainRc_lt (p : List Nat) (hp : ∀ b ∈ p, b < 4) :
    plainRc p < 2 ^ (2 * p.length) := by
  induction p using List.reverseRecOn with
  | nil => simp [plainRc]
  | append_singleton q r ih =>
    have hr : r < 4 := hp r (by simp)
    have h1 : plainRc q < 2 ^ (2 * q.length) := ih fun b hb => hp b (by simp [hb])
    have h2 : plainRc q <<< 2 < 2 ^ (2 * q.length + 2) := by
      rw [Nat.shiftLeft_eq, Nat.pow_add]
      exact Nat.mul_lt_mul_of_lt_of_le h1 (by norm_num) (by norm_num)
    have h3 : r ^^^ 2 < 2 ^ (2 * q.length + 2) := by
      have : r ^^^ 2 < 2 ^ 2 := Nat.xor_lt_two_pow (by omega) (by omega)
      exact Nat.lt_of_lt_of_le this (Nat.pow_le_pow_right (by norm_num) (by omega))
    rw [plainRc_concat]
    have h4 := Nat.xor_lt_two_pow h2 h3
    have h5 : 2 * (q ++ [r]).length = 2 * q.length + 2 := by
      simp
      omega
    rw [h5]
    exact h4

/-- On at most `K` symbols, the masked fold agrees with the unmasked fold. -/
theorem rcM_eq_plainRc {K : Nat} (hK1 : 1 ≤ K) (hK : 2 * K ≤ 32) :
    ∀ (q : List Nat), (∀ b ∈ q, b < 4) → q.length ≤ K →
      rcM (2 ^ (2 * K) - 1) q = plainRc q := by
  intro q
  induction q using List.reverseRecOn with
  | nil =>
    intro _ _
    rfl
  | append_singleton p r ih =>
    intro hq hlen
    have hplen : p.length + 1 ≤ K := by
      simpa using hlen
    have hpel : ∀ b ∈ p, b < 4 := fun b hb => hq b (by simp [hb])
    have hcc : rcM (2 ^ (2 * K) - 1) (p ++ [r]) =
        (((rcM (2 ^ (2 * K) - 1) p <<< 2) % 2 ^ 32) &&& (2 ^ (2 * K) - 1)) ^^^
          (r ^^^ 2) := rcMFrom_concat _ 0 p r
    have hlt : plainRc p <<< 2 < 2 ^ (2 * K) := by
      have h1 := plainRc_lt p hpel
      rw [Nat.shiftLeft_eq]
      calc plainRc p * 2 ^ 2 < 2 ^ (2 * p.length) * 2 ^ 2 :=
            Nat.mul_lt_mul_of_lt_of_le h1 (Nat.le_refl _) (by norm_num)
        _ = 2 ^ (2 * p.length + 2) := by rw [Nat.pow_add]
        _ ≤ 2 ^ (2 * K) := Nat.pow_le_pow_right (by norm_num) (by omega)
    rw [hcc, ih hpel (by omega), Nat.mod_eq_of_lt
      (Nat.lt_of_lt_of_le hlt (Nat.pow_le_pow_right (by norm_num) hK)),
      Nat.and_pow_two_sub_one_of_lt_two_pow hlt, ← plainRc_concat]

/-- One masked step only reads the state modulo the window: congruent states
below `2^t` yield steps congruent below `2^(t+2)`. -/
theorem low_bits_step {K c t : Nat} (ht : t + 2 ≤ 2 * K) (hK : 2 * K ≤ 32)
    {st1 st2 : Nat} (h : st1 % 2 ^ t = st2 % 2 ^ t) :
    ((((st1 <<< 2) % 2 ^ 32) &&& (2 ^ (2 * K) - 1)) ^^^ c) % 2 ^ (t + 2) =
      ((((st2 <<< 2) % 2 ^ 32) &&& (2 ^ (2 * K) - 1)) ^^^ c) % 2 ^ (t + 2) := by
  apply Nat.eq_of_testBit_eq
  intro i
  simp only [Nat.testBit_mod_two_pow, Nat.testBit_xor, Nat.testBit_and,
    Nat.testBit_shiftLeft, Nat.testBit_two_pow_sub_one]
  by_cases hi : i < t + 2
  · by_cases h2i : 2 ≤ i
    · have hb : st1.testBit (i - 2) = st2.testBit (i - 2) := by
        have hc := congrArg (fun z => z.testBit (i - 2)) h
        simp only [Nat.testBit_mod_two_pow] at hc
        simpa [show i - 2 < t by omega] using hc
      simp [hi, h2i, hb]
    · simp [hi, h2i]
  · simp [hi]

theorem mod_pow_congr_of_le {x y a b : Nat} (h : x % 2 ^ a = y % 2 ^ a)
    (hba : b ≤ a) : x % 2 ^ b = y % 2 ^ b := by
  have hd : 2 ^ b ∣ 2 ^ a := Nat.pow_dvd_pow 2 hba
  rw [← Nat.mod_mod_of_dvd x hd, ← Nat.mod_mod_of_dvd y hd, h]

/-- After at least one masked step, the fold result only depends on the state
modulo `2^(2K - 2|p|)`; once `|p| ≥ K`, not at all. -/
theorem rcMFrom_state_congr {K : Nat} (hK1 : 1 ≤ K) (hK : 2 * K ≤ 32) :
    ∀ (p : List Nat), (∀ b ∈ p, b < 4) → 1 ≤ p.length →
      ∀ (st1 st2 : Nat),
        st1 % 2 ^ (2 * K - 2 * p.length) = st2 % 2 ^ (2 * K - 2 * p.length) →
        rcMFrom (2 ^ (2 * K) - 1) st1 p = rcMFrom (2 ^ (2 * K) - 1) st2 p
  | [], _, h1 => by simp at h1
  | r :: p', hel, _ => by
    intro st1 st2 h
    have hr : r < 4 := hel r (by simp)
    have hstep := low_bits_step (c := r ^^^ 2)
      (t := 2 * K - 2 * (r :: p').length) (by simp; omega) hK h
    rcases List.eq_nil_or_concat p' with hnil | ⟨q, x, hqx⟩
    · subst hnil
      show (((st1 <<< 2) % 2 ^ 32 &&& (2 ^ (2 * K) - 1)) ^^^ (r ^^^ 2)) =
        (((st2 <<< 2) % 2 ^ 32 &&& (2 ^ (2 * K) - 1)) ^^^ (r ^^^ 2))
      have hb1 : (((st1 <<< 2) % 2 ^ 32) &&& (2 ^ (2 * K) - 1)) ^^^ (r ^^^ 2) <
          2 ^ (2 * K) :=
        Nat.xor_lt_two_pow (Nat.and_lt_two_pow _ (by
          have := Nat.two_pow_pos (2 * K)
          omega))
          (Nat.lt_of_lt_of_le (show r ^^^ 2 < 2 ^ 2 from
            Nat.xor_lt_two_pow (by omega) (by omega))
            (Nat.pow_le_pow_right (by norm_num) (by omega)))
      have hb2 : (((st2 <<< 2) % 2 ^ 32) &&& (2 ^ (2 * K) - 1)) ^^^ (r ^^^ 2) <
          2 ^ (2 * K) :=
        Nat.xor_lt_two_pow (Nat.and_lt_two_pow _ (by
          have := Nat.two_pow_pos (2 * K)
          omega))
          (Nat.lt_of_lt_of_le (show r ^^^ 2 < 2 ^ 2 from
            Nat.xor_lt_two_pow (by omega) (by omega))
            (Nat.pow_le_pow_right (by norm_num) (by omega)))
      have ht2 : 2 * K - 2 * ([r] : List Nat).length + 2 = 2 * K := by
        simp
        omega
      rw [ht2] at hstep
      rw [← Nat.mod_eq_of_lt hb1, ← Nat.mod_eq_of_lt hb2]
      exact hstep
    · have hlen' : 1 ≤ p'.length := by
        rw [hqx]
        simp
      have hel' : ∀ b ∈ p', b < 4 := fun b hb => hel b (by simp [hb])
      show rcMFrom (2 ^ (2 * K) - 1) _ p' = rcMFrom (2 ^ (2 * K) - 1) _ p'
      exact rcMFrom_state_congr hK1 hK p' hel' hlen' _ _
        (mod_pow_congr_of_le hstep (by simp; omega))

/-- Once `K` or more symbols are folded, the initial state is irrelevant. -/
theorem rcMFrom_forget {K : Nat} (hK1 : 1 ≤ K) (hK : 2 * K ≤ 32) (p : List Nat)
    (hel : ∀ b ∈ p, b < 4) (hlen : K ≤ p.length) (st : Nat) :
    rcMFrom (2 ^ (2 * K) - 1) st p = rcM (2 ^ (2 * K) - 1) p := by
  apply rcMFrom_state_congr hK1 hK p hel (by omega) st 0
  have hz : 2 * K - 2 * p.length = 0 := by omega
  rw [hz]
  simp [Nat.mod_one]

/-- Folding a long out-stream reduces to its last `K` symbols, unmasked. -/
theorem rcM_long (K : Nat) (hK1 : 1 ≤ K) (hK : 2 * K ≤ 32) (p : List Nat)
    (hel : ∀ b ∈ p, b < 4) (hlen : K ≤ p.length) :
    rcM (2 ^ (2 * K) - 1) p = plainRc (p.drop (p.length - K)) := by
  have hsplit : p = p.take (p.length - K) ++ p.drop (p.length - K) :=
    (List.take_append_drop _ p).symm
  have hdlen : (p.drop (p.length - K)).length = K := by
    rw [List.length_drop]
    omega
  conv_lhs => rw [hsplit]
  have happ : rcM (2 ^ (2 * K) - 1) (p.take (p.length - K) ++ p.drop (p.length - K)) =
      rcMFrom (2 ^ (2 * K) - 1) (rcM (2 ^ (2 * K) - 1) (p.take (p.length - K)))
        (p.drop (p.length - K)) := by
    unfold rcM rcMFrom
    rw [List.foldl_append]
  rw [happ, rcMFrom_forget hK1 hK _ (fun b hb => hel b (List.mem_of_mem_drop hb))
    (by omega) _]
  exact rcM_eq_plainRc hK1 hK _ (fun b hb => hel b (List.mem_of_mem_drop hb))
    (by omega)

/-! ### The dynamic canonical AntiLex mapper (`AntiLexHasher<true>::mapper`) -/

/-- Mutable state of `AntiLexHasher<true>::mapper`: both registers plus the
growing `shift`, `anti`, `mask` constants and the step counter `i`. -/
structure ALState where
  fw : Nat
  rc : Nat
  i : Nat
  sh : Nat
  anti : Nat
  mask : Nat

/-- One step of `AntiLexHasher<true>::mapper` (b = 2). -/
def alMapStepCan (st : ALState) (a : Nat) : ALState × Nat :=
  let fw0 := if 32 ≤ st.i * 2 then st.fw >>> 2 else st.fw
  let fw1 := fw0 ^^^ ((a <<< st.sh) % 2 ^ 32)
  let rc1 := if st.i * 2 < 32 then
      (((st.rc <<< 2) % 2 ^ 32) &&& st.mask) ^^^ (a ^^^ 2)
    else st.rc
  let grow := (st.i + 1) * 2 < 32
  (⟨fw1, rc1, st.i + 1,
    if grow then st.sh + 2 else st.sh,
    if grow then (st.anti <<< 2) % 2 ^ 32 else st.anti,
    if grow then ((st.mask <<< 2) % 2 ^ 32) ||| 3 else st.mask⟩,
   min (fw1 ^^^ st.anti) (rc1 ^^^ st.anti))

/-- Initial mapper state: `shift = 0`, `anti = mask = (1 << b) - 1 = 3`. -/
def alInit : ALState := ⟨0, 0, 0, 0, 3, 3⟩

/-- `AntiLexHasher<true>::hash_seq` (the canonical mapper derives no constant
from the sequence length, so it is total). -/
def AntiLexHasher.hash_seq_can (s : List Nat) : Nat :=
  (mapAccum alMapStepCan alInit s).getLastD 0

/-- Closed form of the mapper's forward register after feeding `p`. -/
def dynFw (p : List Nat) : Nat :=
  encFw 30 p >>> (30 - 2 * (min p.length 16 - 1))

/-- Closed form of the full mapper state after feeding `p`. -/
def alStateAt (p : List Nat) : ALState :=
  ⟨dynFw p, plainRc (p.take 16), p.length,
   2 * min p.length 15, 3 <<< (2 * min p.length 15),
   2 ^ (2 * min (p.length + 1) 16) - 1⟩

theorem alStateAt_nil : alStateAt [] = alInit := by
  unfold alStateAt alInit dynFw encFw encFwFrom plainRc
  norm_num

theorem dynFw_step (p : List Nat) (a : Nat) (ha : a < 4) :
    (if 32 ≤ p.length * 2 then dynFw p >>> 2 else dynFw p) ^^^
      ((a <<< (2 * min p.length 15)) % 2 ^ 32) = dynFw (p ++ [a]) := by
  have hE' : encFw 30 (p ++ [a]) = (encFw 30 p >>> 2) ^^^ (a <<< 30) := by
    rw [show encFw 30 (p ++ [a]) = encFwFrom 30 0 (p ++ [a]) from rfl,
      encFwFrom_concat,
      Nat.mod_eq_of_lt (shiftLeft_lt_two_pow (show a < 2 ^ 2 by omega) (by omega))]
    rfl
  have hlen : (p ++ [a]).length = p.length + 1 := by simp
  have hnw : (a <<< 30) % 2 ^ 32 = a <<< 30 :=
    Nat.mod_eq_of_lt (shiftLeft_lt_two_pow (show a < 2 ^ 2 by omega) (by omega))
  rcases Nat.lt_or_ge p.length 1 with h0 | h1
  · have hp0 : p = [] := List.length_eq_zero.mp (by omega)
    subst hp0
    have hDnil : dynFw [] = 0 := rfl
    have hifc : (if 32 ≤ ([] : List Nat).length * 2 then dynFw [] >>> 2
        else dynFw []) = 0 := by
      rw [hDnil]
      simp
    rw [hifc]
    have hmin15 : 2 * min ([] : List Nat).length 15 = 0 := rfl
    rw [hmin15]
    have hA : (a <<< 0) % 2 ^ 32 = a := by
      rw [Nat.shiftLeft_zero]
      exact Nat.mod_eq_of_lt (by omega)
    rw [hA, Nat.zero_xor]
    have hfwa : encFw 30 ([] ++ [a]) = a <<< 30 := by
      rw [hE']
      have hfwnil : encFw 30 ([] : List Nat) = 0 := rfl
      rw [hfwnil]
      norm_num
    unfold dynFw
    rw [hfwa, hlen]
    rw [show (30 - 2 * (min (List.length ([] : List Nat) + 1) 16 - 1)) = 30 from rfl]
    exact (Nat.shiftLeft_shiftRight a 30).symm
  · rcases Nat.lt_or_ge p.length 16 with h16 | h16
    · -- 1 ≤ |p| ≤ 15
      unfold dynFw
      rw [if_neg (by omega), hlen]
      rw [show min p.length 16 = p.length from by omega,
        show min (p.length + 1) 16 = p.length + 1 from by omega,
        show min p.length 15 = p.length from by omega, hE']
      rw [Nat.mod_eq_of_lt (shiftLeft_lt_two_pow (show a < 2 ^ 2 by omega) (by omega))]
      rw [shiftRight_xor_distrib, ← Nat.shiftRight_add,
        shiftLeft_shiftRight_of_le a (by omega)]
      have e1 : 2 + (30 - 2 * (p.length + 1 - 1)) = 30 - 2 * (p.length - 1) := by
        omega
      have e2 : 30 - (30 - 2 * (p.length + 1 - 1)) = 2 * p.length := by omega
      rw [e1, e2]
    · -- |p| ≥ 16
      unfold dynFw
      rw [if_pos (by omega), hlen]
      rw [show min p.length 16 = 16 from by omega,
        show min (p.length + 1) 16 = 16 from by omega,
        show min p.length 15 = 15 from by omega, hE', hnw]
      norm_num

theorem plainRc_take_step (p : List Nat) (a : Nat) (hp : ∀ b ∈ p, b < 4) :
    (if p.length * 2 < 32 then
        (((plainRc (p.take 16) <<< 2) % 2 ^ 32) &&&
          (2 ^ (2 * min (p.length + 1) 16) - 1)) ^^^ (a ^^^ 2)
      else plainRc (p.take 16)) = plainRc ((p ++ [a]).take 16) := by
  rcases Nat.lt_or_ge p.length 16 with h16 | h16
  · rw [if_pos (by omega)]
    have htp : p.take 16 = p := List.take_of_length_le (by omega)
    have htpa : (p ++ [a]).take 16 = p ++ [a] := List.take_of_length_le (by
      simp
      omega)
    have hmin : min (p.length + 1) 16 = p.length + 1 := by omega
    rw [htp, htpa, hmin]
    have hlt : plainRc p <<< 2 < 2 ^ (2 * (p.length + 1)) := by
      have h1 := plainRc_lt p hp
      rw [Nat.shiftLeft_eq]
      calc plainRc p * 2 ^ 2 < 2 ^ (2 * p.length) * 2 ^ 2 :=
            Nat.mul_lt_mul_of_lt_of_le h1 (Nat.le_refl _) (by norm_num)
        _ = 2 ^ (2 * p.length + 2) := by rw [Nat.pow_add]
        _ ≤ 2 ^ (2 * (p.length + 1)) := Nat.pow_le_pow_right (by norm_num) (by omega)
    rw [Nat.mod_eq_of_lt (Nat.lt_of_lt_of_le hlt
        (Nat.pow_le_pow_right (by norm_num) (by omega))),
      Nat.and_pow_two_sub_one_of_lt_two_pow hlt, ← plainRc_concat]
  · rw [if_neg (by omega)]
    congr 1
    rw [List.take_append_eq_append_take, show 16 - p.length = 0 from by omega]
    simp

theorem sh_step (j : Nat) :
    (if (j + 1) * 2 < 32 then 2 * min j 15 + 2 else 2 * min j 15) =
      2 * min (j + 1) 15 := by
  by_cases hg : (j + 1) * 2 < 32 <;> simp [hg] <;> omega

theorem anti_step (j : Nat) :
    (if (j + 1) * 2 < 32 then ((3 <<< (2 * min j 15)) <<< 2) % 2 ^ 32
      else 3 <<< (2 * min j 15)) = 3 <<< (2 * min (j + 1) 15) := by
  by_cases hg : (j + 1) * 2 < 32
  · rw [if_pos hg, ← Nat.shiftLeft_add,
      Nat.mod_eq_of_lt (shiftLeft_lt_two_pow (show (3 : Nat) < 2 ^ 2 by omega)
        (by omega))]
    congr 1
    omega
  · rw [if_neg hg]
    congr 2
    omega

theorem mask_step (j : Nat) :
    (if (j + 1) * 2 < 32 then
        (((2 ^ (2 * min (j + 1) 16) - 1) <<< 2) % 2 ^ 32) ||| 3
      else 2 ^ (2 * min (j + 1) 16) - 1) = 2 ^ (2 * min (j + 1 + 1) 16) - 1 := by
  by_cases hg : (j + 1) * 2 < 32
  · rw [if_pos hg]
    have hmin1 : min (j + 1) 16 = j + 1 := by omega
    have hmin2 : min (j + 1 + 1) 16 = j + 2 := by omega
    rw [hmin1, hmin2]
    have hpow : (1 : Nat) ≤ 2 ^ (2 * (j + 1)) := Nat.one_le_two_pow
    have hsh : ((2 ^ (2 * (j + 1)) - 1) <<< 2) = 2 ^ 2 * (2 ^ (2 * (j + 1)) - 1) := by
      rw [Nat.shiftLeft_eq, Nat.mul_comm]
    have hlt : 2 ^ 2 * (2 ^ (2 * (j + 1)) - 1) < 2 ^ 32 := by
      have h2 : (2 : Nat) ^ (2 * (j + 1)) ≤ 2 ^ 30 :=
        Nat.pow_le_pow_right (by norm_num) (by omega)
      have h3 : (2 : Nat) ^ 2 * 2 ^ 30 = 2 ^ 32 := by norm_num
      calc 2 ^ 2 * (2 ^ (2 * (j + 1)) - 1) ≤ 2 ^ 2 * (2 ^ 30 - 1) := by
            apply Nat.mul_le_mul_left
            omega
        _ < 2 ^ 32 := by omega
    rw [hsh, Nat.mod_eq_of_lt hlt, ← Nat.mul_add_lt_is_or (by omega) _]
    have hpw : (2 : Nat) ^ (2 * (j + 2)) = 2 ^ 2 * 2 ^ (2 * (j + 1)) := by
      rw [← Nat.pow_add]
      congr 1
      omega
    omega
  · rw [if_neg hg]
    have hmm : min (j + 1) 16 = min (j + 1 + 1) 16 := by omega
    rw [hmm]

/-- One step of the dynamic mapper from the closed-form state: the new state
is the closed form of the extended input, and the output is the minimum of
forward and reverse-complement registers under the current inversion mask. -/
theorem alMapStepCan_spec (p : List Nat) (hp : ∀ b ∈ p, b < 4) (a : Nat)
    (ha : a < 4) :
    alMapStepCan (alStateAt p) a =
      (alStateAt (p ++ [a]),
       min (dynFw (p ++ [a]) ^^^ (3 <<< (2 * min p.length 15)))
           (plainRc ((p ++ [a]).take 16) ^^^ (3 <<< (2 * min p.length 15)))) := by
  have hfw := dynFw_step p a ha
  have hrc := plainRc_take_step p a hp
  have hsh := sh_step p.length
  have hanti := anti_step p.length
  have hmask := mask_step p.length
  have hlen : (p ++ [a]).length = p.length + 1 := by simp
  unfold alMapStepCan alStateAt
  simp only
  rw [hlen, ← hfw, ← hrc, ← hanti, ← hmask, ← hsh]

theorem foldSt_alMapStepCan (p : List Nat) (hp : ∀ b ∈ p, b < 4) :
    foldSt alMapStepCan alInit p = alStateAt p := by
  induction p using List.reverseRecOn with
  | nil => exact alStateAt_nil.symm
  | append_singleton q a ih =>
    have h1 : foldSt alMapStepCan alInit (q ++ [a]) =
        (alMapStepCan (foldSt alMapStepCan alInit q) a).1 := by
      unfold foldSt
      rw [List.foldl_append]
      rfl
    rw [h1, ih (fun b hb => hp b (by simp [hb])),
      alMapStepCan_spec q (fun b hb => hp b (by simp [hb])) a (hp a (by simp))]

/-- The last output of the dynamic canonical mapper on a non-empty input. -/
theorem hash_seq_can_eq (w : List Nat) (hw : w ≠ []) (hel : ∀ b ∈ w, b < 4) :
    AntiLexHasher.hash_seq_can w =
      min (dynFw w ^^^ (3 <<< (2 * (min w.length 16 - 1))))
          (plainRc (w.take 16) ^^^ (3 <<< (2 * (min w.length 16 - 1)))) := by
  obtain ⟨q, a, rfl⟩ := (List.eq_nil_or_concat w).resolve_left hw
  rw [List.concat_eq_append]
  have hq : ∀ b ∈ q, b < 4 := fun b hb => hel b (by simp [hb])
  have ha : a < 4 := hel a (by simp)
  unfold AntiLexHasher.hash_seq_can
  rw [mapAccum_append]
  have hsingle : mapAccum alMapStepCan (foldSt alMapStepCan alInit q) [a] =
      [(alMapStepCan (foldSt alMapStepCan alInit q) a).2] := rfl
  rw [hsingle, List.getLastD_concat, foldSt_alMapStepCan q hq,
    alMapStepCan_spec q hq a ha]
  have hamt : 2 * (min (q ++ [a]).length 16 - 1) = 2 * min q.length 15 := by
    simp
    omega
  rw [hamt]

/-! ### Decomposing streams whose output is a function of the new state -/

theorem mapAccum_out_of_state (step : σ → α → σ × β) (f : σ → α → σ) (out : σ → β)
    (hstep : ∀ st a, step st a = (f st a, out (f st a))) :
    ∀ (l : List α) (st0 : σ),
      mapAccum step st0 l =
        (List.range l.length).map (fun i => out (List.foldl f st0 (l.take (i + 1))))
  | [], st0 => by simp
  | a :: l, st0 => by
    rw [mapAccum_cons, hstep st0 a,
      mapAccum_out_of_state step f out hstep l (f st0 a)]
    simp only [List.length_cons, List.range_succ_eq_map, List.map_cons, List.map_map]
    exact List.cons_eq_cons.mpr ⟨rfl, List.map_congr_left fun i _ => rfl⟩

theorem foldl_zip_prod (gF : σ → α → σ) (gR : τ → γ → τ) :
    ∀ (l1 : List α) (l2 : List γ) (stF : σ) (stR : τ),
      (l1.zip l2).foldl (fun st p => (gF st.1 p.1, gR st.2 p.2)) (stF, stR) =
        ((l1.take l2.length).foldl gF stF, (l2.take l1.length).foldl gR stR)
  | [], l2, stF, stR => by simp
  | a :: l1, [], stF, stR => by simp
  | a :: l1, b :: l2, stF, stR => by
    simp only [List.zip_cons_cons, List.foldl_cons, List.length_cons,
      List.take_succ_cons]
    exact foldl_zip_prod gF gR l1 l2 (gF stF a) (gR stR b)

theorem foldl_zip_fst (g : σ → α → σ) :
    ∀ (l1 : List α) (l2 : List γ) (st : σ), l1.length ≤ l2.length →
      (l1.zip l2).foldl (fun st p => g st p.1) st = l1.foldl g st
  | [], l2, st, _ => by simp
  | a :: l1, [], st, h => by simp at h
  | a :: l1, b :: l2, st, h => by
    simp only [List.zip_cons_cons, List.foldl_cons]
    exact foldl_zip_fst g l1 l2 (g st a) (by simpa using h)

theorem range_drop (n m : Nat) :
    (List.range n).drop m = (List.range (n - m)).map (fun j => j + m) := by
  apply List.ext_getElem
  · simp
  · intro i h1 h2
    simp only [List.getElem_drop, List.getElem_range, List.getElem_map]
    omega

theorem mapAccum_getLastD_concat (step : σ → α → σ × β) (st : σ) (q : List α)
    (a : α) (d : β) :
    (mapAccum step st (q ++ [a])).getLastD d = (step (foldSt step st q) a).2 := by
  rw [mapAccum_append,
    show mapAccum step (foldSt step st q) [a] = [(step (foldSt step st q) a).2]
      from rfl,
    List.getLastD_concat]

/-! ### One-shot (`hash_seq`) AntiLex hashing and per-window closed forms -/

/-- The `shift` constant recomputed by `AntiLexHasher<false>::mapper` from the
length of the sequence it is given. -/
def antiLexShift (k : Nat) : Nat := if 2 * k ≤ 32 then 2 * (k - 1) else 30

/-- One step of `AntiLexHasher<false>::mapper` (and of its
`in_out_mapper_scalar`, which ignores the outgoing symbol). -/
def alMapStepFwd (sh fw a : Nat) : Nat × Nat :=
  ((fw >>> 2) ^^^ ((a <<< sh) % 2 ^ 32),
   ((fw >>> 2) ^^^ ((a <<< sh) % 2 ^ 32)) ^^^ (3 <<< sh))

/-- `hash_seq` of the forward AntiLex hasher.  The mapper recomputes `shift`
as `b * (seq.len() - 1)`, which underflows `usize` on an empty sequence, so
the empty case is a failure (`none`) rather than the `unwrap_or(0)` default. -/
def AntiLexHasher.hash_seq_fwd (w : List Nat) : Option Nat :=
  if w.length = 0 then none
  else some ((mapAccum (fun fw a => alMapStepFwd (antiLexShift w.length) fw a)
    0 w).getLastD 0)

theorem antiLexShift_eq (k : Nat) (hk : 1 ≤ k) :
    antiLexShift k = 2 * (min k 16 - 1) := by
  unfold antiLexShift
  by_cases h : 2 * k ≤ 32
  · rw [if_pos h, Nat.min_eq_left (by omega)]
  · rw [if_neg h, Nat.min_eq_right (by omega)]

theorem foldSt_alMapStepFwd (sh : Nat) (p : List Nat) (st : Nat) :
    foldSt (fun fw a => alMapStepFwd sh fw a) st p = encFwFrom sh st p := rfl

/-- The last mapper output on a non-empty window is the folded forward
register with the top symbol inverted. -/
theorem hash_seq_fwd_eq (w : List Nat) (hw : w ≠ []) :
    AntiLexHasher.hash_seq_fwd w =
      some (encFw (antiLexShift w.length) w ^^^ (3 <<< antiLexShift w.length)) := by
  obtain ⟨q, a, rfl⟩ := (List.eq_nil_or_concat w).resolve_left hw
  rw [List.concat_eq_append]
  unfold AntiLexHasher.hash_seq_fwd
  rw [if_neg (by simp)]
  rw [mapAccum_getLastD_concat, foldSt_alMapStepFwd]
  unfold alMapStepFwd
  simp only
  rw [← encFwFrom_concat]
  rfl

/-- Per-window closed form of the forward AntiLex hash of a window of a
`k`-mer: the last `min k 16` symbols packed right-to-left, top symbol
inverted. -/
def antiLexWindowFwd (k : Nat) (w : List Nat) : Nat :=
  encFw (2 * (min k 16 - 1)) (w.drop (w.length - min k 16)) ^^^
    (3 <<< (2 * (min k 16 - 1)))

/-- Per-window closed form of the canonical AntiLex hash: minimum of the
forward window encoding and the reverse-complement encoding of the first
`min k 16` symbols. -/
def antiLexWindowCan (k : Nat) (w : List Nat) : Nat :=
  min (encFw (2 * (min k 16 - 1)) (w.drop (w.length - min k 16)) ^^^
        (3 <<< (2 * (min k 16 - 1))))
      (plainRc (w.take (min k 16)) ^^^ (3 <<< (2 * (min k 16 - 1))))

/-- `hash_seq` of the forward AntiLex hasher on a `k`-length window equals the
per-window closed form. -/
theorem hash_seq_fwd_window (k : Nat) (hk : 1 ≤ k) (w : List Nat)
    (hlen : w.length = k) (hel : ∀ b ∈ w, b < 4) :
    AntiLexHasher.hash_seq_fwd w = some (antiLexWindowFwd k w) := by
  have hw : w ≠ [] := by
    intro h
    rw [h] at hlen
    simp at hlen
    omega
  rw [hash_seq_fwd_eq w hw]
  unfold antiLexWindowFwd
  rw [hlen, antiLexShift_eq k hk]
  have hdrop : encFw (2 * (min k 16 - 1)) w =
      encFw (2 * (min k 16 - 1)) (w.drop (w.length - min k 16)) := by
    conv_lhs => rw [← List.take_append_drop (w.length - min k 16) w]
    apply encFw_drop_prefix
    · intro b hb
      exact hel b (List.take_subset _ _ hb)
    · rw [List.length_drop]
      have h1 : min k 16 ≤ k := Nat.min_le_left _ _
      have h2 : 1 ≤ min k 16 := by omega
      omega
  rw [hdrop, hlen]

/-- The dynamic canonical mapper (`hash_seq`) on a `k`-length window equals
the per-window closed form. -/
theorem hash_seq_can_window (k : Nat) (hk : 1 ≤ k) (w : List Nat)
    (hlen : w.length = k) (hel : ∀ b ∈ w, b < 4) :
    AntiLexHasher.hash_seq_can w = antiLexWindowCan k w := by
  have hw : w ≠ [] := by
    intro h
    rw [h] at hlen
    simp at hlen
    omega
  rw [hash_seq_can_eq w hw hel]
  unfold antiLexWindowCan
  have hK1 : 1 ≤ min k 16 := by omega
  have hKk : min k 16 ≤ k := Nat.min_le_left _ _
  have hfw : dynFw w = encFw (2 * (min k 16 - 1)) (w.drop (w.length - min k 16)) := by
    have h1 : encFw (2 * (min k 16 - 1)) w =
        encFw 30 w >>> (30 - 2 * (min k 16 - 1)) :=
      encFw_shift_of_le (by omega) w hel
    have h2 : dynFw w = encFw 30 w >>> (30 - 2 * (min k 16 - 1)) := by
      unfold dynFw
      rw [hlen]
    have h3 : encFw (2 * (min k 16 - 1)) w =
        encFw (2 * (min k 16 - 1)) (w.drop (w.length - min k 16)) := by
      conv_lhs => rw [← List.take_append_drop (w.length - min k 16) w]
      apply encFw_drop_prefix
      · intro b hb
        exact hel b (List.take_subset _ _ hb)
      · rw [List.length_drop]
        omega
    rw [h2, ← h1, h3]
  have hrc : w.take 16 = w.take (min k 16) := by
    rcases Nat.le_total k 16 with h | h
    · rw [Nat.min_eq_left h, List.take_of_length_le (by omega),
        List.take_of_length_le (by omega)]
    · rw [Nat.min_eq_right h]
  have hamt : 2 * (min w.length 16 - 1) = 2 * (min k 16 - 1) := by rw [hlen]
  rw [hfw, hrc, hamt]

/-! ### AntiLex streaming equals the per-window closed forms -/

/-- The folded forward register of a `take (j+k)` prefix only depends on the
window's last `min k 16` symbols. -/
theorem encFw_take_window (k : Nat) (hk : 1 ≤ k) (s : List Nat)
    (hel : ∀ b ∈ s, b < 4) (j : Nat) (hj : j + k ≤ s.length) :
    encFw (2 * (min k 16 - 1)) (s.take (j + k)) =
      encFw (2 * (min k 16 - 1)) (((s.drop j).take k).drop (k - min k 16)) := by
  have hK1 : 1 ≤ min k 16 := by omega
  have hKk : min k 16 ≤ k := Nat.min_le_left _ _
  have hw : ((s.drop j).take k).drop (k - min k 16) =
      (s.drop (j + (k - min k 16))).take (min k 16) := by
    rw [List.drop_take, List.drop_drop]
    have e1 : k - (k - min k 16) = min k 16 := by omega
    rw [e1]
  have hsplit : s.take (j + k) =
      s.take (j + (k - min k 16)) ++ (s.drop (j + (k - min k 16))).take (min k 16) := by
    rw [← List.take_add]
    congr 1
    omega
  rw [hsplit, hw]
  apply encFw_drop_prefix
  · intro b hb
    exact hel b (List.take_subset _ _ hb)
  · rw [List.length_take, List.length_drop]
    omega

/-- Scalar streaming of the forward AntiLex hasher emits exactly the
per-window closed forms, one per window, in order. -/
theorem hash_kmers_scalar_fwd_windows (k : Nat) (hk : 1 ≤ k)
    (s : List Nat) (hel : ∀ b ∈ s, b < 4) :
    (AntiLexHasher.mk false k).hash_kmers_scalar_fwd s =
      (windowsList k s).map (antiLexWindowFwd k) := by
  have hshift : (AntiLexHasher.mk false k).shift = 2 * (min k 16 - 1) :=
    AntiLexHasher.shift_eq (AntiLexHasher.mk false k) hk
  have hanti : (AntiLexHasher.mk false k).anti = 3 <<< (2 * (min k 16 - 1)) := by
    unfold AntiLexHasher.anti
    rw [hshift]
  unfold AntiLexHasher.hash_kmers_scalar_fwd
  rw [show (AntiLexHasher.mk false k).k = k from rfl]
  rw [hashKmersScalarWith_eq_drop hk (Nat.le_refl _)]
  rw [mapAccum_out_of_state
    (fun fw ar => (AntiLexHasher.mk false k).inOutStepFwd fw ar)
    (fun fw ar =>
      (fw >>> 2) ^^^ ((ar.1 <<< (AntiLexHasher.mk false k).shift) % 2 ^ 32))
    (fun st => st ^^^ (AntiLexHasher.mk false k).anti)
    (fun st a => rfl) (pairStream (k - 1) s) 0]
  have hplen : (pairStream (k - 1) s).length = s.length := by
    unfold pairStream
    rw [List.length_zip, List.length_append, List.length_replicate]
    omega
  rw [hplen, ← List.map_drop, range_drop, List.map_map]
  unfold windowsList
  rw [show s.length - (k - 1) = s.length + 1 - k from by omega, List.map_map]
  apply List.map_congr_left
  intro j hj
  have hjlt : j + k ≤ s.length := by
    have := List.mem_range.mp hj
    omega
  simp only [Function.comp_apply]
  have hi : j + (k - 1) + 1 = j + k := by omega
  rw [hi]
  have hfold : List.foldl
      (fun fw (ar : Nat × Nat) =>
        (fw >>> 2) ^^^ ((ar.1 <<< (AntiLexHasher.mk false k).shift) % 2 ^ 32))
      0 ((pairStream (k - 1) s).take (j + k)) =
      encFw (AntiLexHasher.mk false k).shift (s.take (j + k)) := by
    unfold pairStream
    rw [take_zip]
    exact foldl_zip_fst
      (fun fw a =>
        (fw >>> 2) ^^^ ((a <<< (AntiLexHasher.mk false k).shift) % 2 ^ 32))
      (s.take (j + k)) ((List.replicate (k - 1) 0 ++ s).take (j + k)) 0
      (by
        simp only [List.length_take, List.length_append, List.length_replicate]
        omega)
  rw [hfold, hshift, hanti]
  unfold antiLexWindowFwd
  have hwl : ((s.drop j).take k).length = k := by
    rw [List.length_take, List.length_drop]
    omega
  rw [hwl, encFw_take_window k hk s hel j hjlt]

/-- The folded out-register of a canonical prefix reduces to the unmasked
reverse-complement encoding of the window's first `min k 16` symbols. -/
theorem rcM_take_window (k : Nat) (hk : 1 ≤ k) (s : List Nat)
    (hel : ∀ b ∈ s, b < 4) (j : Nat) (hj : j + k ≤ s.length) :
    rcM (2 ^ (2 * min k 16) - 1)
        ((List.replicate (k - 16) 0 ++ s).take (j + k)) =
      plainRc (((s.drop j).take k).take (min k 16)) := by
  have hK1 : 1 ≤ min k 16 := by omega
  have hKk : min k 16 ≤ k := Nat.min_le_left _ _
  have hpel : ∀ b ∈ (List.replicate (k - 16) (0 : Nat) ++ s).take (j + k), b < 4 := by
    intro b hb
    have hb2 := List.take_subset _ _ hb
    rcases List.mem_append.mp hb2 with h | h
    · rw [List.eq_of_mem_replicate h]
      omega
    · exact hel b h
  have hplen : ((List.replicate (k - 16) (0 : Nat) ++ s).take (j + k)).length =
      j + k := by
    simp only [List.length_take, List.length_append, List.length_replicate]
    omega
  rw [rcM_long (min k 16) hK1 (by omega) _ hpel (by omega), hplen]
  congr 1
  rw [List.drop_take, List.drop_append_eq_append_drop,
    List.drop_eq_nil_of_le (by rw [List.length_replicate]; omega), List.nil_append,
    List.length_replicate]
  have e1 : j + k - min k 16 - (k - 16) = j := by omega
  have e2 : j + k - (j + k - min k 16) = min k 16 := by omega
  rw [e1, e2, List.take_take, Nat.min_eq_left hKk]

/-- Scalar streaming of the canonical AntiLex hasher emits exactly the
per-window closed forms, one per window, in order. -/
theorem hash_kmers_scalar_can_windows (k : Nat) (hk : 1 ≤ k)
    (s : List Nat) (hel : ∀ b ∈ s, b < 4) :
    (AntiLexHasher.mk true k).hash_kmers_scalar_can s =
      (windowsList k s).map (antiLexWindowCan k) := by
  have hshift : (AntiLexHasher.mk true k).shift = 2 * (min k 16 - 1) :=
    AntiLexHasher.shift_eq (AntiLexHasher.mk true k) hk
  have hanti : (AntiLexHasher.mk true k).anti = 3 <<< (2 * (min k 16 - 1)) := by
    unfold AntiLexHasher.anti
    rw [hshift]
  have hmask : (AntiLexHasher.mk true k).mask = 2 ^ (2 * min k 16) - 1 :=
    AntiLexHasher.mask_eq (AntiLexHasher.mk true k) hk
  unfold AntiLexHasher.hash_kmers_scalar_can
  rw [show (AntiLexHasher.mk true k).k = k from rfl]
  rw [hashKmersScalarWith_eq_drop hk (by omega)]
  rw [mapAccum_out_of_state
    (AntiLexHasher.inOutStepCan (AntiLexHasher.mk true k))
    (fun st ar =>
      ((st.1 >>> 2) ^^^ ((ar.1 <<< (AntiLexHasher.mk true k).shift) % 2 ^ 32),
       (((st.2 <<< 2) % 2 ^ 32) &&& (AntiLexHasher.mk true k).mask) ^^^
         (ar.2 ^^^ 2)))
    (fun st => min (st.1 ^^^ (AntiLexHasher.mk true k).anti)
      (st.2 ^^^ (AntiLexHasher.mk true k).anti))
    (fun st a => rfl) (pairStream (k - 32 / 2) s) (0, 0)]
  have hplen : (pairStream (k - 32 / 2) s).length = s.length := by
    unfold pairStream
    rw [List.length_zip, List.length_append, List.length_replicate]
    omega
  rw [hplen, ← List.map_drop, range_drop, List.map_map]
  unfold windowsList
  rw [show s.length - (k - 1) = s.length + 1 - k from by omega, List.map_map]
  apply List.map_congr_left
  intro j hj
  have hjlt : j + k ≤ s.length := by
    have := List.mem_range.mp hj
    omega
  simp only [Function.comp_apply]
  have hi : j + (k - 1) + 1 = j + k := by omega
  rw [hi]
  have hfold : List.foldl
      (fun (st : Nat × Nat) (ar : Nat × Nat) =>
        ((st.1 >>> 2) ^^^ ((ar.1 <<< (AntiLexHasher.mk true k).shift) % 2 ^ 32),
         (((st.2 <<< 2) % 2 ^ 32) &&& (AntiLexHasher.mk true k).mask) ^^^
           (ar.2 ^^^ 2)))
      (0, 0) ((pairStream (k - 32 / 2) s).take (j + k)) =
      (encFw (AntiLexHasher.mk true k).shift (s.take (j + k)),
       rcM (AntiLexHasher.mk true k).mask
         ((List.replicate (k - 32 / 2) 0 ++ s).take (j + k))) := by
    unfold pairStream
    rw [take_zip]
    have hl1 : (s.take (j + k)).length = j + k := by
      rw [List.length_take]
      omega
    have hl2 : (((List.replicate (k - 32 / 2) (0 : Nat) ++ s)).take (j + k)).length =
        j + k := by
      simp only [List.length_take, List.length_append, List.length_replicate]
      omega
    have hzp := foldl_zip_prod
      (fun fw a =>
        (fw >>> 2) ^^^ ((a <<< (AntiLexHasher.mk true k).shift) % 2 ^ 32))
      (fun rc r =>
        (((rc <<< 2) % 2 ^ 32) &&& (AntiLexHasher.mk true k).mask) ^^^ (r ^^^ 2))
      (s.take (j + k)) ((List.replicate (k - 32 / 2) 0 ++ s).take (j + k)) 0 0
    have ht1 : (s.take (j + k)).take
        (((List.replicate (k - 32 / 2) (0 : Nat) ++ s)).take (j + k)).length =
        s.take (j + k) :=
      List.take_of_length_le (by
        simp only [List.length_take, List.length_append, List.length_replicate]
        omega)
    have ht2 : ((List.replicate (k - 32 / 2) (0 : Nat) ++ s).take (j + k)).take
        ((s.take (j + k)).length) =
        (List.replicate (k - 32 / 2) (0 : Nat) ++ s).take (j + k) :=
      List.take_of_length_le (by
        simp only [List.length_take, List.length_append, List.length_replicate]
        omega)
    rw [ht1, ht2] at hzp
    exact hzp
  rw [hfold]
  simp only
  rw [hshift, hanti, hmask]
  unfold antiLexWindowCan
  have hwl : ((s.drop j).take k).length = k := by
    rw [List.length_take, List.length_drop]
    omega
  rw [hwl, encFw_take_window k hk s hel j hjlt,
    show (32 : Nat) / 2 = 16 from rfl, rcM_take_window k hk s hel j hjlt]

/-! ### Reverse-complement duality of the AntiLex window encodings -/

theorem plainRc_cons (x : Nat) (t : List Nat) :
    plainRc (x :: t) = ((x ^^^ 2) <<< (2 * t.length)) ^^^ plainRc t := by
  induction t using List.reverseRecOn with
  | nil => simp [plainRc]
  | append_singleton t r ih =>
    rw [show x :: (t ++ [r]) = (x :: t) ++ [r] from rfl, plainRc_concat, ih,
      shiftLeft_xor_distrib, ← Nat.shiftLeft_add, Nat.xor_assoc,
      ← plainRc_concat]
    have e1 : 2 * t.length + 2 = 2 * (t ++ [r]).length := by
      simp
      omega
    rw [e1]

theorem complement_base_lt {b : Nat} (hb : b < 4) : complement_base b < 4 := by
  unfold complement_base
  exact Nat.xor_lt_two_pow (n := 2) hb (by omega)

theorem mem_revcomp_lt {s : List Nat} (hel : ∀ b ∈ s, b < 4) :
    ∀ b ∈ revcomp s, b < 4 := by
  intro b hb
  unfold revcomp at hb
  rw [List.mem_reverse, List.mem_map] at hb
  obtain ⟨x, hx, rfl⟩ := hb
  exact complement_base_lt (hel x hx)

/-- The unmasked reverse-complement fold of the reverse complement of `q` is
the forward top-insertion fold of `q`, read down from bit 30. -/
theorem plainRc_revcomp (q : List Nat) (hq : ∀ b ∈ q, b < 4)
    (hlen : q.length ≤ 16) :
    plainRc (revcomp q) = encFw 30 q >>> (30 - 2 * (q.length - 1)) := by
  induction q using List.reverseRecOn with
  | nil => simp [plainRc, revcomp, encFw, encFwFrom]
  | append_singleton p b ih =>
    have hb : b < 4 := hq b (by simp)
    have hpel : ∀ x ∈ p, x < 4 := fun x hx => hq x (by simp [hx])
    have hpl : p.length ≤ 15 := by
      have := hlen
      simp at this
      omega
    have hmod : (b <<< 30) % 2 ^ 32 = b <<< 30 :=
      Nat.mod_eq_of_lt (shiftLeft_lt_two_pow (show b < 2 ^ 2 by omega) (by omega))
    have hcc : complement_base b ^^^ 2 = b := complement_base_involutive b
    rw [revcomp_concat, plainRc_cons, length_revcomp, hcc,
      show encFw 30 (p ++ [b]) = encFwFrom 30 0 (p ++ [b]) from rfl,
      encFwFrom_concat 30 0 p b, hmod]
    rcases Nat.eq_zero_or_pos p.length with h0 | h0
    · have hpnil : p = [] := List.eq_nil_of_length_eq_zero h0
      subst hpnil
      have e1 : (([] : List Nat) ++ [b]).length - 1 = 0 := by simp
      rw [e1]
      show (b <<< 0) ^^^ plainRc (revcomp []) =
        ((encFw 30 [] >>> 2) ^^^ (b <<< 30)) >>> (30 - 0)
      have hz : encFw 30 ([] : List Nat) = 0 := rfl
      have hrc0 : plainRc (revcomp []) = 0 := rfl
      rw [hz, hrc0, Nat.zero_shiftRight, Nat.zero_xor, Nat.xor_zero,
        Nat.shiftLeft_zero, shiftLeft_shiftRight_of_le b (by omega)]
      rfl
    · rw [ih hpel (by omega)]
      have e1 : 30 - 2 * ((p ++ [b]).length - 1) = 30 - 2 * p.length := by
        simp only [List.length_append, List.length_cons, List.length_nil]
        omega
      rw [e1, shiftRight_xor_distrib, ← Nat.shiftRight_add,
        shiftLeft_shiftRight_of_le b (by omega)]
      have e2 : 30 - (30 - 2 * p.length) = 2 * p.length := by omega
      have e3 : 2 + (30 - 2 * p.length) = 30 - 2 * (p.length - 1) := by omega
      rw [e2, e3]
      exact Nat.xor_comm _ _

theorem take_reverse_eq (l : List α) (n : Nat) (hn : n ≤ l.length) :
    l.reverse.take n = (l.drop (l.length - n)).reverse := by
  apply List.ext_getElem
  · simp
    omega
  · intro i h1 h2
    simp only [List.getElem_take, List.getElem_reverse, List.getElem_drop,
      List.length_reverse, List.length_drop, List.length_take] at h1 h2 ⊢
    congr 1
    omega

theorem drop_reverse_eq (l : List α) (n : Nat) (hn : n ≤ l.length) :
    l.reverse.drop n = (l.take (l.length - n)).reverse := by
  apply List.ext_getElem
  · simp
  · intro i h1 h2
    simp only [List.getElem_drop, List.getElem_reverse, List.getElem_take,
      List.length_reverse, List.length_drop, List.length_take] at h1 h2 ⊢
    congr 1
    omega

theorem revcomp_take (w : List Nat) (n : Nat) (hn : n ≤ w.length) :
    (revcomp w).take n = revcomp (w.drop (w.length - n)) := by
  unfold revcomp
  rw [take_reverse_eq _ n (by simp; omega), List.length_map, ← List.map_drop]

theorem revcomp_drop (w : List Nat) (n : Nat) (hn : n ≤ w.length) :
    (revcomp w).drop n = revcomp (w.take (w.length - n)) := by
  unfold revcomp
  rw [drop_reverse_eq _ n (by simp; omega), List.length_map, ← List.map_take]

/-- The canonical per-window closed form is invariant under reverse
complement: forward and reverse-complement encodings trade places under the
minimum. -/
theorem antiLexWindowCan_revcomp (k : Nat) (hk : 1 ≤ k) (w : List Nat)
    (hlen : w.length = k) (hel : ∀ b ∈ w, b < 4) :
    antiLexWindowCan k (revcomp w) = antiLexWindowCan k w := by
  have hK1 : 1 ≤ min k 16 := by omega
  have hKk : min k 16 ≤ k := Nat.min_le_left _ _
  have hK16 : min k 16 ≤ 16 := Nat.min_le_right _ _
  have hdlen : (w.drop (k - min k 16)).length = min k 16 := by
    rw [List.length_drop, hlen]
    omega
  have htlen : (w.take (min k 16)).length = min k 16 := by
    rw [List.length_take, hlen]
    omega
  have hdel : ∀ b ∈ w.drop (k - min k 16), b < 4 :=
    fun b hb => hel b (List.drop_subset _ _ hb)
  have htel : ∀ b ∈ w.take (min k 16), b < 4 :=
    fun b hb => hel b (List.take_subset _ _ hb)
  have hA : (revcomp w).take (min k 16) = revcomp (w.drop (k - min k 16)) := by
    rw [revcomp_take w (min k 16) (by omega), hlen]
  have hB : (revcomp w).drop (k - min k 16) = revcomp (w.take (min k 16)) := by
    rw [revcomp_drop w (k - min k 16) (by omega), hlen,
      show k - (k - min k 16) = min k 16 from by omega]
  have hsle : 2 * (min k 16 - 1) ≤ 30 := by omega
  have hC1 : plainRc (revcomp (w.drop (k - min k 16))) =
      encFw (2 * (min k 16 - 1)) (w.drop (k - min k 16)) := by
    rw [plainRc_revcomp _ hdel (by omega), hdlen,
      ← encFw_shift_of_le hsle (w.drop (k - min k 16)) hdel]
  have hC2 : encFw (2 * (min k 16 - 1)) (revcomp (w.take (min k 16))) =
      plainRc (w.take (min k 16)) := by
    have hdual := plainRc_revcomp (revcomp (w.take (min k 16)))
      (mem_revcomp_lt htel) (by rw [length_revcomp]; omega)
    rw [revcomp_revcomp, length_revcomp, htlen] at hdual
    rw [encFw_shift_of_le hsle (revcomp (w.take (min k 16)))
      (mem_revcomp_lt htel)]
    exact hdual.symm
  unfold antiLexWindowCan
  rw [length_revcomp, hlen, hA, hB, hC1, hC2, Nat.min_comm]

theorem mem_of_mem_windowsList {k : Nat} {t w : List Nat} {x : Nat}
    (hw : w ∈ windowsList k t) (hx : x ∈ w) : x ∈ t := by
  unfold windowsList at hw
  rw [List.mem_map] at hw
  obtain ⟨i, _, rfl⟩ := hw
  exact List.drop_subset _ _ (List.take_subset _ _ hx)

/-- Canonical AntiLex streaming: the scalar hash stream of `s`, reversed, is
the scalar hash stream of the reverse complement of `s`. -/
theorem hash_kmers_scalar_can_revcomp (k : Nat) (hk : 1 ≤ k) (s : List Nat)
    (hel : ∀ b ∈ s, b < 4) :
    ((AntiLexHasher.mk true k).hash_kmers_scalar_can s).reverse =
      (AntiLexHasher.mk true k).hash_kmers_scalar_can (revcomp s) := by
  rw [hash_kmers_scalar_can_windows k hk s hel,
    hash_kmers_scalar_can_windows k hk (revcomp s) (mem_revcomp_lt hel),
    windowsList_revcomp k hk s, List.map_reverse, List.map_map]
  congr 1
  apply List.map_congr_left
  intro w hw
  exact (antiLexWindowCan_revcomp k hk w (length_of_mem_windowsList hw)
    (fun x hx => hel x (mem_of_mem_windowsList hw hx))).symm

/-! ### AntiLex SIMD lanes -/

theorem AntiLexHasher.shift_lt (h : AntiLexHasher) : h.shift < 32 := by
  unfold shift
  by_cases hle : 2 * h.k ≤ 32 <;> simp [hle] <;> omega

/-- One lane of `AntiLexHasher<false>::in_out_mapper_simd`. -/
def AntiLexHasher.inOutStepFwdSimd (h : AntiLexHasher) (fw : Nat)
    (ar : Nat × Nat) : Nat × Nat :=
  ((simd_shr fw 2) ^^^ (simd_shl ar.1 h.shift),
   ((simd_shr fw 2) ^^^ (simd_shl ar.1 h.shift)) ^^^ h.anti)

/-- One lane of `AntiLexHasher<true>::in_out_mapper_simd`. -/
def AntiLexHasher.inOutStepCanSimd (h : AntiLexHasher) (st : Nat × Nat)
    (ar : Nat × Nat) : (Nat × Nat) × Nat :=
  (((simd_shr st.1 2) ^^^ (simd_shl ar.1 h.shift),
    ((simd_shl st.2 2) &&& h.mask) ^^^ (ar.2 ^^^ 2)),
   min (((simd_shr st.1 2) ^^^ (simd_shl ar.1 h.shift)) ^^^ h.anti)
       ((((simd_shl st.2 2) &&& h.mask) ^^^ (ar.2 ^^^ 2)) ^^^ h.anti))

theorem AntiLexHasher.inOutStepFwdSimd_agree (h : AntiLexHasher) (fw : Nat)
    (ar : Nat × Nat) : h.inOutStepFwdSimd fw ar = h.inOutStepFwd fw ar := by
  have h2 : ¬ (32 ≤ 2) := by omega
  have hsh : ¬ (32 ≤ h.shift) := by
    have := h.shift_lt
    omega
  simp only [AntiLexHasher.inOutStepFwdSimd, AntiLexHasher.inOutStepFwd,
    simd_shr, simd_shl, if_neg h2, if_neg hsh]

theorem AntiLexHasher.inOutStepCanSimd_agree (h : AntiLexHasher) (st : Nat × Nat)
    (ar : Nat × Nat) : h.inOutStepCanSimd st ar = h.inOutStepCan st ar := by
  have h2 : ¬ (32 ≤ 2) := by omega
  have hsh : ¬ (32 ≤ h.shift) := by
    have := h.shift_lt
    omega
  simp only [AntiLexHasher.inOutStepCanSimd, AntiLexHasher.inOutStepCan,
    simd_shr, simd_shl, if_neg h2, if_neg hsh]

/-- The SIMD hash stream of one lane for the forward AntiLex hasher. -/
def AntiLexHasher.hash_kmers_simd_lane_fwd (h : AntiLexHasher) (s : List Nat) :
    List Nat :=
  hashKmersSimdLaneWith h.k (h.k - 1) (fun fw ar => h.inOutStepFwdSimd fw ar) 0 s

/-- The SIMD hash stream of one lane for the canonical AntiLex hasher. -/
def AntiLexHasher.hash_kmers_simd_lane_can (h : AntiLexHasher) (s : List Nat) :
    List Nat :=
  hashKmersSimdLaneWith h.k (h.k - 32 / 2) h.inOutStepCanSimd (0, 0) s

theorem AntiLexHasher.hash_kmers_simd_lane_fwd_eq (h : AntiLexHasher)
    (hk : 1 ≤ h.k) (s : List Nat) :
    h.hash_kmers_simd_lane_fwd s = h.hash_kmers_scalar_fwd s := by
  unfold hash_kmers_simd_lane_fwd hashKmersSimdLaneWith hash_kmers_scalar_fwd
  rw [hashKmersScalarWith_eq_drop hk (Nat.le_refl _)]
  have hstep : (fun fw ar => h.inOutStepFwdSimd fw ar) =
      (fun fw ar => h.inOutStepFwd fw ar) := by
    funext fw ar
    exact h.inOutStepFwdSimd_agree fw ar
  rw [hstep]

theorem AntiLexHasher.hash_kmers_simd_lane_can_eq (h : AntiLexHasher)
    (hk : 1 ≤ h.k) (s : List Nat) :
    h.hash_kmers_simd_lane_can s = h.hash_kmers_scalar_can s := by
  unfold hash_kmers_simd_lane_can hashKmersSimdLaneWith hash_kmers_scalar_can
  rw [hashKmersScalarWith_eq_drop hk (by omega)]
  have hstep : h.inOutStepCanSimd = h.inOutStepCan := by
    funext st ar
    exact h.inOutStepCanSimd_agree st ar
  rw [hstep]

/-! ### Ambiguity masking -/

/-- Modelled from the spec: `iter_kmer_ambiguity(k)` of the external
`packed_seq` crate yields one bit per k-mer window, true exactly when the
window overlaps a flagged (ambiguous) symbol. -/
def kmerAmbiguity (k : Nat) (amb : List Bool) : List Bool :=
  (List.range (amb.length + 1 - k)).map (fun i => ((amb.drop i).take k).any id)

/-- One step of `KmerHasher::in_out_mapper_ambiguous_scalar`: run the inner
mapper, and only for step indices `i > k - 1` pull the next window-ambiguity
bit (`next().unwrap()` on an exhausted iterator is a failure, hence the
`Option`); a pulled `true` replaces the hash with `u32::MAX`. -/
def ambMapStep (k : Nat) (step : σ → Nat × Nat → σ × Nat)
    (st : σ × Nat × List Bool) (ar : Nat × Nat) :
    (σ × Nat × List Bool) × Option Nat :=
  if k - 1 < st.2.1 then
    ((((step st.1 ar).1, st.2.1 + 1, st.2.2.tail)),
      match st.2.2 with
      | [] => none
      | b :: _ => some (if b then 2 ^ 32 - 1 else (step st.1 ar).2))
  else
    (((step st.1 ar).1, st.2.1 + 1, st.2.2), some (step st.1 ar).2)

/-- `in_out_mapper_ambiguous_scalar` driven through the standard streaming
protocol: the delayed pair stream, with the first `k-1` outputs discarded. -/
def inOutAmbiguousStream (k d : Nat) (step : σ → Nat × Nat → σ × Nat) (st0 : σ)
    (s : List Nat) (amb : List Bool) : List (Option Nat) :=
  (mapAccum (ambMapStep k step) (st0, 0, kmerAmbiguity k amb)
    (pairStream d s)).drop (k - 1)

/-- The emission step of `hash_valid_kmers_scalar`: hash the pair, then mask
with `u32::MAX` when the zipped window-ambiguity bit is set. -/
def validStep (step : σ → Nat × Nat → σ × Nat) (st : σ)
    (x : (Nat × Nat) × Bool) : σ × Nat :=
  ((step st x.1).1, if x.2 then 2 ^ 32 - 1 else (step st x.1).2)

/-- Faithful translation of `KmerHasher::hash_valid_kmers_scalar`: the same
three-phase protocol as `hash_kmers_scalar`, but the emission phase zips the
`(incoming, outgoing)` pairs with the window-ambiguity iterator. -/
def hashValidKmersScalarWith (k d : Nat) (step : σ → Nat × Nat → σ × Nat)
    (st0 : σ) (s : List Nat) (amb : List Bool) : List Nat :=
  mapAccum (validStep step)
    (foldSt step (foldSt step st0 ((s.take d).map (fun a => (a, 0))))
      (((s.drop d).zip s).take (k - 1 - d)))
    (((s.drop (k - 1)).zip (s.drop (k - 1 - d))).zip (kmerAmbiguity k amb))

/-! ### The spec's per-window AntiLex encoding -/

/-- Modelled from the spec: the anti-lexicographic window encoding, symbols
packed right-to-left (the window's last symbol most significant) into the low
`2 * min k 16` bits. -/
def packF (w : List Nat) : Nat := w.foldr (fun a acc => 4 * acc + a) 0

/-- Modelled from the spec: the forward anti-lex encoding of a window — the
last `min k 16` symbols packed right-to-left, with the most significant
symbol's bits inverted. -/
def specAntiLexEnc (k : Nat) (w : List Nat) : Nat :=
  packF (w.drop (w.length - min k 16)) ^^^ (3 <<< (2 * (min k 16 - 1)))

theorem xor_eq_add_of_lt {a b i : Nat} (hb : b < 2 ^ i) :
    (2 ^ i * a) ^^^ b = 2 ^ i * a + b := by
  rw [Nat.mul_add_lt_is_or hb a]
  refine Nat.eq_of_testBit_eq fun j => ?_
  have h2 : 2 ^ i * a = a <<< i := by rw [Nat.shiftLeft_eq, Nat.mul_comm]
  rw [h2]
  simp only [Nat.testBit_xor, Nat.testBit_or, Nat.testBit_shiftLeft]
  by_cases hij : i ≤ j
  · have hbj : b.testBit j = false :=
      Nat.testBit_eq_false_of_lt
        (Nat.lt_of_lt_of_le hb (Nat.pow_le_pow_right (by norm_num) hij))
    simp [hbj]
  · simp [hij]

theorem packF_cons (a : Nat) (m : List Nat) :
    packF (a :: m) = 4 * packF m + a := rfl

theorem packF_revcomp : ∀ (l : List Nat), (∀ b ∈ l, b < 4) →
    packF (revcomp l) = plainRc l := by
  intro l
  induction l using List.reverseRecOn with
  | nil =>
    intro _
    rfl
  | append_singleton p r ih =>
    intro hl
    have hr : r < 4 := hl r (by simp)
    have hpel : ∀ x ∈ p, x < 4 := fun x hx => hl x (by simp [hx])
    have hrr : r ^^^ 2 < 2 ^ 2 := Nat.xor_lt_two_pow (by omega) (by omega)
    rw [revcomp_concat, packF_cons, ih hpel, plainRc_concat, Nat.shiftLeft_eq,
      Nat.mul_comm (plainRc p) (2 ^ 2)]
    exact (xor_eq_add_of_lt hrr).symm

/-- The spec's forward window encoding coincides with the streamed forward
register. -/
theorem specAntiLexEnc_fwd (k : Nat) (hk : 1 ≤ k) (w : List Nat)
    (hlen : w.length = k) (hel : ∀ b ∈ w, b < 4) :
    specAntiLexEnc k w =
      encFw (2 * (min k 16 - 1)) (w.drop (k - min k 16)) ^^^
        (3 <<< (2 * (min k 16 - 1))) := by
  have hK1 : 1 ≤ min k 16 := by omega
  have hKk : min k 16 ≤ k := Nat.min_le_left _ _
  have hdel : ∀ b ∈ w.drop (k - min k 16), b < 4 :=
    fun b hb => hel b (List.drop_subset _ _ hb)
  have hdlen : (w.drop (k - min k 16)).length = min k 16 := by
    rw [List.length_drop, hlen]
    omega
  have hp : packF (w.drop (k - min k 16)) =
      encFw (2 * (min k 16 - 1)) (w.drop (k - min k 16)) := by
    have h1 : packF (revcomp (revcomp (w.drop (k - min k 16)))) =
        plainRc (revcomp (w.drop (k - min k 16))) :=
      packF_revcomp (revcomp (w.drop (k - min k 16))) (mem_revcomp_lt hdel)
    rw [revcomp_revcomp] at h1
    rw [h1, plainRc_revcomp _ hdel (by omega), hdlen,
      ← encFw_shift_of_le (show 2 * (min k 16 - 1) ≤ 30 by omega) _ hdel]
  unfold specAntiLexEnc
  rw [hlen, hp]

/-- The spec's window encoding of the reverse-complement strand coincides with
the streamed out-register. -/
theorem specAntiLexEnc_rc (k : Nat) (hk : 1 ≤ k) (w : List Nat)
    (hlen : w.length = k) (hel : ∀ b ∈ w, b < 4) :
    specAntiLexEnc k (revcomp w) =
      plainRc (w.take (min k 16)) ^^^ (3 <<< (2 * (min k 16 - 1))) := by
  have hK1 : 1 ≤ min k 16 := by omega
  have hKk : min k 16 ≤ k := Nat.min_le_left _ _
  have htel : ∀ b ∈ w.take (min k 16), b < 4 :=
    fun b hb => hel b (List.take_subset _ _ hb)
  unfold specAntiLexEnc
  rw [length_revcomp, hlen,
    revcomp_drop w (k - min k 16) (by omega),
    show w.length - (k - min k 16) = min k 16 from by rw [hlen]; omega,
    packF_revcomp _ htel]

/-- The canonical per-window closed form is the minimum of the two spec
encodings. -/
theorem antiLexWindowCan_spec (k : Nat) (hk : 1 ≤ k) (w : List Nat)
    (hlen : w.length = k) (hel : ∀ b ∈ w, b < 4) :
    antiLexWindowCan k w = min (specAntiLexEnc k w) (specAntiLexEnc k (revcomp w)) := by
  rw [specAntiLexEnc_fwd k hk w hlen hel, specAntiLexEnc_rc k hk w hlen hel]
  unfold antiLexWindowCan
  rw [hlen]

/-! ### Alphabet-width assertions -/

/-- The state handed to the scalar in/out mapper of a CharHasher, guarded by
the `assert!(seq.bits_per_char() <= BITS_PER_CHAR)` evaluated once at
construction, before any symbol is hashed. -/
def CharHasher.in_out_mapper_scalar_ok (h : CharHasher) (bits : Nat) :
    Option (Nat × Nat) :=
  if bits ≤ h.bits_per_char then some (h.fw_init, h.rc_init) else none

/-- The SIMD in/out mapper's construction guard (same assertion). -/
def CharHasher.in_out_mapper_simd_ok (h : CharHasher) (bits : Nat) :
    Option (Nat × Nat) :=
  if bits ≤ h.bits_per_char then some (h.fw_init, h.rc_init) else none

/-- The single-pass mapper's construction guard (same assertion, zero
initial state). -/
def CharHasher.mapper_ok (h : CharHasher) (bits : Nat) : Option (Nat × Nat) :=
  if bits ≤ h.bits_per_char then some (0, 0) else none

/-- The AntiLex scalar in/out mapper's construction guard
(`assert!(seq.bits_per_char() <= self.b)`). -/
def AntiLexHasher.in_out_mapper_scalar_ok (h : AntiLexHasher) (bits : Nat) :
    Option (Nat × Nat) :=
  if bits ≤ h.b then some (0, 0) else none

/-- The AntiLex SIMD in/out mapper's construction guard (same assertion,
zero-splatted initial registers). -/
def AntiLexHasher.in_out_mapper_simd_ok (h : AntiLexHasher) (bits : Nat) :
    Option (Nat × Nat) :=
  if bits ≤ h.b then some (0, 0) else none

/-- The AntiLex single-pass mapper's construction guard. -/
def AntiLexHasher.mapper_ok (h : AntiLexHasher) (bits : Nat) :
    Option (Nat × Nat) :=
  if bits ≤ h.b then some (0, 0) else none

/-! ### Helper lemmas for the claim theorems -/

theorem seedPerturb_even (hashOne : Nat → Nat) (sd : Nat) :
    (((hashOne sd % 2 ^ 32) <<< 1) % 2 ^ 32) % 2 = 0 := by
  rw [Nat.mod_mod_of_dvd _ (Nat.pow_dvd_pow 2 (show 1 ≤ 32 by omega)),
    Nat.shiftLeft_eq, Nat.pow_one]
  exact Nat.mul_mod_left _ _

theorem mulConst_odd (hashOne : Nat → Nat) (seed : Option Nat) :
    mulConst hashOne seed % 2 = 1 := by
  cases seed with
  | none =>
    show (MUL_C ^^^ 0) % 2 = 1
    decide
  | some sd =>
    show (MUL_C ^^^ (((hashOne sd % 2 ^ 32) <<< 1) % 2 ^ 32)) % 2 = 1
    have h1 : (MUL_C ^^^ (((hashOne sd % 2 ^ 32) <<< 1) % 2 ^ 32)) % 2 =
        (MUL_C % 2) ^^^ ((((hashOne sd % 2 ^ 32) <<< 1) % 2 ^ 32) % 2) :=
      mod_two_pow_xor_distrib MUL_C _ 1
    rw [h1, seedPerturb_even hashOne sd]
    decide

theorem guard_none_iff (B bits : Nat) (v : Nat × Nat) :
    (if bits ≤ B then some v else none) = (none : Option (Nat × Nat)) ↔
      B < bits := by
  by_cases h : bits ≤ B
  · simp [h]
  · simp [h]
    omega

theorem length_hashKmersScalarWith (k d : Nat) (hd : d ≤ k - 1)
    (step : σ → Nat × Nat → σ × Nat) (st0 : σ) (s : List Nat) :
    (hashKmersScalarWith k d step st0 s).length = s.length - (k - 1) := by
  unfold hashKmersScalarWith
  rw [length_mapAccum, List.length_zip]
  simp only [List.length_drop]
  omega

theorem length_hashKmersSimdLaneWith (k d : Nat)
    (step : σ → Nat × Nat → σ × Nat) (st0 : σ) (s : List Nat) :
    (hashKmersSimdLaneWith k d step st0 s).length = s.length - (k - 1) := by
  unfold hashKmersSimdLaneWith pairStream
  rw [List.length_drop, length_mapAccum, List.length_zip]
  simp only [List.length_append, List.length_replicate]
  omega

/-! ### The claims -/

/-- C6: constructing any mapper over a sequence whose declared bits-per-symbol
exceeds the hasher's supported width (2 for NtHasher and AntiLexHasher, 8 for
MulHasher) fails the construction-time assertion, before any symbol is
hashed; within the limit the assertion never fires and the mapper is handed
its initial state. -/
theorem claim_C6 : ∀ (canonical : Bool) (R k bits : Nat) (hashOne : Nat → Nat)
    (seed : Option Nat),
    ((NtHasher canonical R k hashOne seed).in_out_mapper_scalar_ok bits = none ↔
      2 < bits) ∧
    ((NtHasher canonical R k hashOne seed).in_out_mapper_simd_ok bits = none ↔
      2 < bits) ∧
    ((NtHasher canonical R k hashOne seed).mapper_ok bits = none ↔ 2 < bits) ∧
    ((MulHasher canonical R k hashOne seed).in_out_mapper_scalar_ok bits = none ↔
      8 < bits) ∧
    ((MulHasher canonical R k hashOne seed).in_out_mapper_simd_ok bits = none ↔
      8 < bits) ∧
    ((MulHasher canonical R k hashOne seed).mapper_ok bits = none ↔ 8 < bits) ∧
    ((AntiLexHasher.mk canonical k).in_out_mapper_scalar_ok bits = none ↔
      2 < bits) ∧
    ((AntiLexHasher.mk canonical k).in_out_mapper_simd_ok bits = none ↔
      2 < bits) ∧
    ((AntiLexHasher.mk canonical k).mapper_ok bits = none ↔ 2 < bits) := by
  intro canonical R k bits hashOne seed
  exact ⟨guard_none_iff 2 bits _, guard_none_iff 2 bits _, guard_none_iff 2 bits _,
    guard_none_iff 8 bits _, guard_none_iff 8 bits _, guard_none_iff 8 bits _,
    guard_none_iff 2 bits _, guard_none_iff 2 bits _, guard_none_iff 2 bits _⟩

/-- C7: MulHasher's per-symbol hash is `sym * mul mod 2^32` for every symbol
and every seed choice, with `mul` odd: the fixed constant is odd and the
seed-derived perturbation (`hash << 1`) is even, so seeding never changes the
parity. -/
theorem claim_C7 : ∀ (canonical : Bool) (R k b : Nat) (hashOne : Nat → Nat)
    (seed : Option Nat),
    (MulHasher canonical R k hashOne seed).f b =
      b * mulConst hashOne seed % 2 ^ 32 ∧
    mulConst hashOne seed % 2 = 1 ∧
    MUL_C % 2 = 1 ∧
    (∀ sd, (((hashOne sd % 2 ^ 32) <<< 1) % 2 ^ 32) % 2 = 0) := by
  intro canonical R k b hashOne seed
  exact ⟨rfl, mulConst_odd hashOne seed, by decide,
    fun sd => seedPerturb_even hashOne sd⟩

/-- C8: the forward AntiLexHasher keeps the trait-default
`delay() = k - 1`; only the canonical instance overrides it, to
`k.saturating_sub(32 / b)`. -/
theorem claim_C8 : ∀ k : Nat,
    (AntiLexHasher.mk false k).delay = k - 1 ∧
    (AntiLexHasher.mk true k).delay = k - 32 / 2 := by
  intro k
  exact ⟨rfl, rfl⟩

/-- C8 counterexample: at `k = 20` the forward delay is `19`, not
`max(0, k - 16) = 4`. -/
theorem claim_C8_counterexample :
    (AntiLexHasher.mk false 20).delay = 19 ∧ (19 : Nat) ≠ max 0 (20 - 16) := by
  decide

/-- C9: the single-pass mapper of the forward NtHasher and MulHasher (and
hence their `hash_seq`) ignores `k`; the canonical instances do not (their
`c_rot` table pre-rotates by `(k-1)*R`), see the counterexample. -/
theorem claim_C9 : ∀ (R k1 k2 : Nat) (hashOne : Nat → Nat) (seed : Option Nat)
    (s : List Nat),
    (NtHasher false R k1 hashOne seed).hash_seq s =
      (NtHasher false R k2 hashOne seed).hash_seq s ∧
    (MulHasher false R k1 hashOne seed).hash_seq s =
      (MulHasher false R k2 hashOne seed).hash_seq s := by
  intro R k1 k2 hashOne seed s
  exact ⟨rfl, rfl⟩

/-- C9 counterexample: the canonical NtHasher's `hash_seq` depends on `k`
already on a single-symbol sequence. -/
theorem claim_C9_counterexample :
    (NtHasher true 7 1 (fun _ => 0) none).hash_seq [0] ≠
      (NtHasher true 7 2 (fun _ => 0) none).hash_seq [0] := by
  decide

/-- C10: `hash_seq` of the empty sequence falls back to 0 for NtHasher and
MulHasher in both modes and for the canonical AntiLexHasher; the forward
AntiLexHasher's mapper recomputes `shift = b*(seq.len()-1)` eagerly, which
underflows on the empty sequence, so that case fails instead of returning 0. -/
theorem claim_C10 : ∀ (canonical : Bool) (R k : Nat) (hashOne : Nat → Nat)
    (seed : Option Nat),
    (NtHasher canonical R k hashOne seed).hash_seq [] = 0 ∧
    (MulHasher canonical R k hashOne seed).hash_seq [] = 0 ∧
    AntiLexHasher.hash_seq_can [] = 0 ∧
    AntiLexHasher.hash_seq_fwd [] = none := by
  intro canonical R k hashOne seed
  exact ⟨rfl, rfl, rfl, rfl⟩

/-- C10 counterexample: the forward AntiLexHasher's one-shot hash of the
empty sequence is a failure, not the fallback value 0. -/
theorem claim_C10_counterexample : AntiLexHasher.hash_seq_fwd [] ≠ some 0 := by
  decide

/-- C2: for every canonical hasher, the scalar hash stream of a DNA sequence,
reversed, equals the scalar hash stream of its reverse complement. -/
theorem claim_C2 : ∀ (R k : Nat) (hashOne : Nat → Nat) (seed : Option Nat)
    (s : List Nat), 1 ≤ k → (∀ b ∈ s, b < 4) →
    ((NtHasher true R k hashOne seed).hash_kmers_scalar s).reverse =
      (NtHasher true R k hashOne seed).hash_kmers_scalar (revcomp s) ∧
    ((MulHasher true R k hashOne seed).hash_kmers_scalar s).reverse =
      (MulHasher true R k hashOne seed).hash_kmers_scalar (revcomp s) ∧
    ((AntiLexHasher.mk true k).hash_kmers_scalar_can s).reverse =
      (AntiLexHasher.mk true k).hash_kmers_scalar_can (revcomp s) := by
  intro R k hashOne seed s hk hel
  exact ⟨(NtHasher true R k hashOne seed).hash_kmers_scalar_revcomp
      (NtHasher_wf true R k hashOne seed) rfl hk s,
    (MulHasher true R k hashOne seed).hash_kmers_scalar_revcomp
      (MulHasher_wf true R k hashOne seed) rfl hk s,
    hash_kmers_scalar_can_revcomp k hk s hel⟩

/-- C2 witness: the canonical property at `k = 1`, `s = [0]`. -/
theorem claim_C2_witness :
    ((1 ≤ 1) ∧ (∀ b ∈ [(0 : Nat)], b < 4)) ∧
    (((NtHasher true 7 1 (fun _ => 0) none).hash_kmers_scalar [0]).reverse =
        (NtHasher true 7 1 (fun _ => 0) none).hash_kmers_scalar (revcomp [0]) ∧
      ((MulHasher true 7 1 (fun _ => 0) none).hash_kmers_scalar [0]).reverse =
        (MulHasher true 7 1 (fun _ => 0) none).hash_kmers_scalar (revcomp [0]) ∧
      ((AntiLexHasher.mk true 1).hash_kmers_scalar_can [0]).reverse =
        (AntiLexHasher.mk true 1).hash_kmers_scalar_can (revcomp [0])) :=
  ⟨⟨by decide, by decide⟩,
    claim_C2 7 1 (fun _ => 0) none [0] (by decide) (by decide)⟩

/-- C3: every streaming form (scalar, and the SIMD lane stream after the
padding discard) of every hasher emits exactly `len - (k-1)` hashes, one per
window. -/
theorem claim_C3 : ∀ (canonical : Bool) (R k : Nat) (hashOne : Nat → Nat)
    (seed : Option Nat) (s : List Nat), 1 ≤ k → k - 1 ≤ s.length →
    ((NtHasher canonical R k hashOne seed).hash_kmers_scalar s).length =
      s.length - (k - 1) ∧
    ((MulHasher canonical R k hashOne seed).hash_kmers_scalar s).length =
      s.length - (k - 1) ∧
    ((AntiLexHasher.mk false k).hash_kmers_scalar_fwd s).length =
      s.length - (k - 1) ∧
    ((AntiLexHasher.mk true k).hash_kmers_scalar_can s).length =
      s.length - (k - 1) ∧
    ((NtHasher canonical R k hashOne seed).hash_kmers_simd_lane_tbl s).length =
      s.length - (k - 1) ∧
    (MulHasher.hash_kmers_simd_lane canonical R k hashOne seed s).length =
      s.length - (k - 1) ∧
    ((AntiLexHasher.mk false k).hash_kmers_simd_lane_fwd s).length =
      s.length - (k - 1) ∧
    ((AntiLexHasher.mk true k).hash_kmers_simd_lane_can s).length =
      s.length - (k - 1) ∧
    s.length - (k - 1) = (windowsList k s).length := by
  intro canonical R k hashOne seed s hk hl
  refine ⟨length_hashKmersScalarWith k (k - 1) (Nat.le_refl _) _ _ s,
    length_hashKmersScalarWith k (k - 1) (Nat.le_refl _) _ _ s,
    length_hashKmersScalarWith k (k - 1) (Nat.le_refl _) _ _ s,
    length_hashKmersScalarWith k (k - 32 / 2) (by omega) _ _ s,
    length_hashKmersSimdLaneWith k (k - 1) _ _ s,
    length_hashKmersSimdLaneWith k (k - 1) _ _ s,
    length_hashKmersSimdLaneWith k (k - 1) _ _ s,
    length_hashKmersSimdLaneWith k (k - 32 / 2) _ _ s, ?_⟩
  rw [length_windowsList]
  omega

/-- C3 witness: the counts at `k = 2`, `s = [0, 1, 2]`. -/
theorem claim_C3_witness :
    ((1 ≤ 2) ∧ (2 - 1 ≤ [(0 : Nat), 1, 2].length)) ∧
    (((NtHasher true 7 2 (fun _ => 0) none).hash_kmers_scalar [0, 1, 2]).length =
        [(0 : Nat), 1, 2].length - (2 - 1) ∧
      ((MulHasher true 7 2 (fun _ => 0) none).hash_kmers_scalar [0, 1, 2]).length =
        [(0 : Nat), 1, 2].length - (2 - 1) ∧
      ((AntiLexHasher.mk false 2).hash_kmers_scalar_fwd [0, 1, 2]).length =
        [(0 : Nat), 1, 2].length - (2 - 1) ∧
      ((AntiLexHasher.mk true 2).hash_kmers_scalar_can [0, 1, 2]).length =
        [(0 : Nat), 1, 2].length - (2 - 1) ∧
      ((NtHasher true 7 2 (fun _ => 0) none).hash_kmers_simd_lane_tbl
          [0, 1, 2]).length = [(0 : Nat), 1, 2].length - (2 - 1) ∧
      (MulHasher.hash_kmers_simd_lane true 7 2 (fun _ => 0) none [0, 1, 2]).length =
        [(0 : Nat), 1, 2].length - (2 - 1) ∧
      ((AntiLexHasher.mk false 2).hash_kmers_simd_lane_fwd [0, 1, 2]).length =
        [(0 : Nat), 1, 2].length - (2 - 1) ∧
      ((AntiLexHasher.mk true 2).hash_kmers_simd_lane_can [0, 1, 2]).length =
        [(0 : Nat), 1, 2].length - (2 - 1) ∧
      [(0 : Nat), 1, 2].length - (2 - 1) = (windowsList 2 [0, 1, 2]).length) :=
  ⟨⟨by decide, by decide⟩,
    claim_C3 true 7 2 (fun _ => 0) none [0, 1, 2] (by decide) (by decide)⟩

/-- C5: the canonical AntiLex hash of a k-mer — one-shot via the dynamic
mapper, or streamed over the single window — is the bitwise minimum of the
spec's forward anti-lex encoding and the same encoding of the
reverse-complement strand. -/
theorem claim_C5 : ∀ (k : Nat) (w : List Nat), 1 ≤ k → w.length = k →
    (∀ b ∈ w, b < 4) →
    AntiLexHasher.hash_seq_can w =
      min (specAntiLexEnc k w) (specAntiLexEnc k (revcomp w)) ∧
    (AntiLexHasher.mk true k).hash_kmers_scalar_can w =
      [min (specAntiLexEnc k w) (specAntiLexEnc k (revcomp w))] := by
  intro k w hk hlen hel
  have h2 := antiLexWindowCan_spec k hk w hlen hel
  refine ⟨(hash_seq_can_window k hk w hlen hel).trans h2, ?_⟩
  rw [hash_kmers_scalar_can_windows k hk w hel]
  have hwl : windowsList k w = [w] := by
    unfold windowsList
    rw [hlen, show k + 1 - k = 1 from by omega,
      show List.range 1 = [0] from rfl, List.map_cons,
      List.map_nil, List.drop_zero, List.take_of_length_le (by omega)]
  rw [hwl, List.map_cons, List.map_nil, h2]

/-- C5 witness: the minimum form at `k = 1`, `w = [0]`. -/
theorem claim_C5_witness :
    ((1 ≤ 1) ∧ ([(0 : Nat)].length = 1) ∧ (∀ b ∈ [(0 : Nat)], b < 4)) ∧
    (AntiLexHasher.hash_seq_can [0] =
        min (specAntiLexEnc 1 [0]) (specAntiLexEnc 1 (revcomp [0])) ∧
      (AntiLexHasher.mk true 1).hash_kmers_scalar_can [0] =
        [min (specAntiLexEnc 1 [0]) (specAntiLexEnc 1 (revcomp [0]))]) :=
  ⟨⟨by decide, by decide, by decide⟩,
    claim_C5 1 [0] (by decide) (by decide) (by decide)⟩

/-- C1: for every hasher family in both modes, on any supported DNA sequence
(the two sequence representations denote the same symbol list, over which all
streams here are defined), the naive per-window `hash_seq` values, the scalar
stream, and the per-lane SIMD stream coincide position for position. -/
theorem claim_C1 : ∀ (canonical : Bool) (R k : Nat) (hashOne : Nat → Nat)
    (seed : Option Nat) (s : List Nat), 1 ≤ k → R < 32 → k ≤ s.length →
    (∀ b ∈ s, b < 4) →
    ((NtHasher canonical R k hashOne seed).hash_kmers_scalar s =
        (windowsList k s).map (NtHasher canonical R k hashOne seed).hash_seq ∧
      (NtHasher canonical R k hashOne seed).hash_kmers_simd_lane_tbl s =
        (NtHasher canonical R k hashOne seed).hash_kmers_scalar s) ∧
    ((MulHasher canonical R k hashOne seed).hash_kmers_scalar s =
        (windowsList k s).map (MulHasher canonical R k hashOne seed).hash_seq ∧
      MulHasher.hash_kmers_simd_lane canonical R k hashOne seed s =
        (MulHasher canonical R k hashOne seed).hash_kmers_scalar s) ∧
    (((AntiLexHasher.mk false k).hash_kmers_scalar_fwd s).map some =
        (windowsList k s).map AntiLexHasher.hash_seq_fwd ∧
      (AntiLexHasher.mk false k).hash_kmers_simd_lane_fwd s =
        (AntiLexHasher.mk false k).hash_kmers_scalar_fwd s) ∧
    ((AntiLexHasher.mk true k).hash_kmers_scalar_can s =
        (windowsList k s).map AntiLexHasher.hash_seq_can ∧
      (AntiLexHasher.mk true k).hash_kmers_simd_lane_can s =
        (AntiLexHasher.mk true k).hash_kmers_scalar_can s) := by
  intro canonical R k hashOne seed s hk hR hlen hel
  refine ⟨⟨?_, ?_⟩, ⟨?_, ?_⟩, ⟨?_, ?_⟩, ⟨?_, ?_⟩⟩
  · exact ((NtHasher canonical R k hashOne seed).hash_kmers_scalar_eq
      (NtHasher_wf canonical R k hashOne seed) hk s).trans
      ((NtHasher canonical R k hashOne seed).naive_eq
        (NtHasher_wf canonical R k hashOne seed) hk s).symm
  · exact (NtHasher canonical R k hashOne seed).hash_kmers_simd_lane_tbl_eq
      (NtHasher_wf canonical R k hashOne seed) hk hR s
  · exact ((MulHasher canonical R k hashOne seed).hash_kmers_scalar_eq
      (MulHasher_wf canonical R k hashOne seed) hk s).trans
      ((MulHasher canonical R k hashOne seed).naive_eq
        (MulHasher_wf canonical R k hashOne seed) hk s).symm
  · exact MulHasher.hash_kmers_simd_lane_eq canonical R k hashOne seed hk hR s
  · rw [hash_kmers_scalar_fwd_windows k hk s hel, List.map_map]
    apply List.map_congr_left
    intro w hw
    simp only [Function.comp_apply]
    exact (hash_seq_fwd_window k hk w (length_of_mem_windowsList hw)
      (fun x hx => hel x (mem_of_mem_windowsList hw hx))).symm
  · exact (AntiLexHasher.mk false k).hash_kmers_simd_lane_fwd_eq hk s
  · rw [hash_kmers_scalar_can_windows k hk s hel]
    apply List.map_congr_left
    intro w hw
    exact (hash_seq_can_window k hk w (length_of_mem_windowsList hw)
      (fun x hx => hel x (mem_of_mem_windowsList hw hx))).symm
  · exact (AntiLexHasher.mk true k).hash_kmers_simd_lane_can_eq hk s

/-- C1 witness: the three-way agreement at `k = 1`, `s = [0]`. -/
theorem claim_C1_witness :
    ((1 ≤ 1) ∧ (7 < 32) ∧ (1 ≤ [(0 : Nat)].length) ∧ (∀ b ∈ [(0 : Nat)], b < 4)) ∧
    (((NtHasher true 7 1 (fun _ => 0) none).hash_kmers_scalar [0] =
          (windowsList 1 [0]).map (NtHasher true 7 1 (fun _ => 0) none).hash_seq ∧
        (NtHasher true 7 1 (fun _ => 0) none).hash_kmers_simd_lane_tbl [0] =
          (NtHasher true 7 1 (fun _ => 0) none).hash_kmers_scalar [0]) ∧
      ((MulHasher true 7 1 (fun _ => 0) none).hash_kmers_scalar [0] =
          (windowsList 1 [0]).map (MulHasher true 7 1 (fun _ => 0) none).hash_seq ∧
        MulHasher.hash_kmers_simd_lane true 7 1 (fun _ => 0) none [0] =
          (MulHasher true 7 1 (fun _ => 0) none).hash_kmers_scalar [0]) ∧
      (((AntiLexHasher.mk false 1).hash_kmers_scalar_fwd [0]).map some =
          (windowsList 1 [0]).map AntiLexHasher.hash_seq_fwd ∧
        (AntiLexHasher.mk false 1).hash_kmers_simd_lane_fwd [0] =
          (AntiLexHasher.mk false 1).hash_kmers_scalar_fwd [0]) ∧
      ((AntiLexHasher.mk true 1).hash_kmers_scalar_can [0] =
          (windowsList 1 [0]).map AntiLexHasher.hash_seq_can ∧
        (AntiLexHasher.mk true 1).hash_kmers_simd_lane_can [0] =
          (AntiLexHasher.mk true 1).hash_kmers_scalar_can [0])) :=
  ⟨⟨by decide, by decide, by decide, by decide⟩,
    claim_C1 true 7 1 (fun _ => 0) none [0] (by decide) (by decide) (by decide)
      (by decide)⟩

/-- C4: the off-by-one in `in_out_mapper_ambiguous_scalar`.  At `k = 2`,
`s = [0,0,0]` with the first symbol flagged ambiguous, the window-ambiguity
bits are `[true, false]`, and `hash_valid_kmers_scalar` masks accordingly;
but the ambiguous in/out mapper (guard `i > k - 1` instead of `i >= k - 1`)
leaves the first (ambiguous) window's hash unmasked and masks the second
(unambiguous) window instead. -/
theorem claim_C4 :
    kmerAmbiguity 2 [true, false, false] = [true, false] ∧
    hashValidKmersScalarWith 2 1
        (NtHasher false 7 2 (fun _ => 0) none).inOutStep
        ((NtHasher false 7 2 (fun _ => 0) none).fw_init,
          (NtHasher false 7 2 (fun _ => 0) none).rc_init)
        [0, 0, 0] [true, false, false] =
      [2 ^ 32 - 1,
        (hashKmersScalarWith 2 1 (NtHasher false 7 2 (fun _ => 0) none).inOutStep
          ((NtHasher false 7 2 (fun _ => 0) none).fw_init,
            (NtHasher false 7 2 (fun _ => 0) none).rc_init) [0, 0, 0]).getD 1 0] ∧
    inOutAmbiguousStream 2 1
        (NtHasher false 7 2 (fun _ => 0) none).inOutStep
        ((NtHasher false 7 2 (fun _ => 0) none).fw_init,
          (NtHasher false 7 2 (fun _ => 0) none).rc_init)
        [0, 0, 0] [true, false, false] =
      [some ((hashKmersScalarWith 2 1
            (NtHasher false 7 2 (fun _ => 0) none).inOutStep
            ((NtHasher false 7 2 (fun _ => 0) none).fw_init,
              (NtHasher false 7 2 (fun _ => 0) none).rc_init) [0, 0, 0]).getD 0 0),
        some (2 ^ 32 - 1)] ∧
    (hashKmersScalarWith 2 1 (NtHasher false 7 2 (fun _ => 0) none).inOutStep
      ((NtHasher false 7 2 (fun _ => 0) none).fw_init,
        (NtHasher false 7 2 (fun _ => 0) none).rc_init) [0, 0, 0]).getD 0 0 ≠
      2 ^ 32 - 1 := by
  decide
